import Mathlib

/-!
Verification of the Cap'n Web RPC session core (`rpc.go`) of gocapnweb.

The embedding models:
* JSON value trees (`Value`); JSON numbers are modelled as integers, since the
  protocol only uses them as export ids, import ids and array indices (Go
  decodes them as float64 and immediately truncates with `int(f)` wherever the
  session core consults them).
* per-session state (`SessionData`) with the two tables `PendingResults` and
  `PendingOperations` modelled as functions `Int → Option _` (Go maps), plus
  the `NextExportID` counter.
* the user dispatcher (`RpcTarget.Dispatch`) as an abstract function
  `String → Value → Except String Value`; its error carries `err.Error()`.
* `resolvePipelineReferences`, which in Go is general recursion that re-enters
  the pending-operations table and can genuinely diverge, as a fuel-indexed
  function: `none` means the computation did not finish within the given fuel.
  Fuel is an artifact of the embedding; every recursive call consumes one unit.
  Dispatched export ids are accumulated in a log (`RState.log`) so that
  "the dispatcher is invoked at most once per id" is expressible.
* `handlePush`, `handlePull`, `handleMessage` directly from the source.
  `json.Marshal` / `json.Unmarshal` round trips on values that were themselves
  produced by decoding JSON always succeed, so the `ArgumentError` and
  `SerializationError` paths of `handlePull` are dead in the model and the
  embedding keeps only the live paths.
* Go map iteration order over decoded JSON objects is unspecified; the model
  fixes the field-list order.  No claim depends on the order.
-/

namespace GoCapnWeb

/-- A JSON-like value tree: null, boolean, number, string, list, mapping.
Numbers are modelled as integers (see the header comment). -/
inductive Value where
  | null : Value
  | bool (b : Bool) : Value
  | num (n : Int) : Value
  | str (s : String) : Value
  | arr (elems : List Value) : Value
  | obj (fields : List (String × Value)) : Value

/-- A pending RPC operation, as in the source: method name and raw args. -/
structure Operation where
  Method : String
  Args : Value

/-- A session table (Go `map[int]V`), modelled as a function. -/
abbrev Table (α : Type) := Int → Option α

/-- The empty table. -/
def Table.empty {α : Type} : Table α := fun _ => none

/-- Go map assignment `t[i] = v`. -/
def Table.set {α : Type} (t : Table α) (i : Int) (v : α) : Table α :=
  fun j => if j = i then some v else t j

/-- Go `delete(t, i)`. -/
def Table.del {α : Type} (t : Table α) (i : Int) : Table α :=
  fun j => if j = i then none else t j

/-- Per-session state (`SessionData` in the source). -/
structure SessionData where
  PendingResults : Table Value
  PendingOperations : Table Operation
  NextExportID : Int

/-- The user-supplied method dispatcher (`RpcTarget.Dispatch`). -/
abbrev Dispatcher := String → Value → Except String Value

/-- `NewSessionData`: fresh tables, `NextExportID = 1`. -/
def NewSessionData : SessionData :=
  { PendingResults := Table.empty
    PendingOperations := Table.empty
    NextExportID := 1 }

/-- Go object lookup `obj[k]` on a decoded JSON object. -/
def objLookup : List (String × Value) → String → Option Value
  | [], _ => none
  | (k, v) :: rest, key => if k = key then some v else objLookup rest key

/-- Detects the source's pipeline-reference head: `len(v) >= 2`, `v[0]` the
string `"pipeline"`, `v[1]` a number.  Returns the referenced id and the
remaining elements `v[2:]`. -/
def asPipelineRef : List Value → Option (Int × List Value)
  | Value.str s :: Value.num i :: rest =>
      if s = "pipeline" then some (i, rest) else none
  | _ => none

/-- The source's `v[2].([]interface{})` check on the remaining elements:
the path, if `v` has a third element and it is a list. -/
def refPath : List Value → Option (List Value)
  | Value.arr p :: _ => some p
  | _ => none

/-- The cached-result error check in `handlePull`: a list of length ≥ 2 whose
first element is the string `"error"`. -/
def isErrorShaped : Value → Bool
  | Value.arr (Value.str s :: _ :: _) => s == "error"
  | _ => false

/-- Wrapping rule for resolve payloads: a list is wrapped in a one-element
list, any other value is sent as-is. -/
def wrapResolve (r : Value) : Value :=
  match r with
  | Value.arr _ => Value.arr [r]
  | _ => r

/-- An outbound `resolve` message with the wrapping rule applied. -/
def resolveMsg (exportID : Int) (r : Value) : Value :=
  Value.arr [Value.str "resolve", Value.num exportID, wrapResolve r]

/-- An outbound `reject` message carrying a raw payload (the cached-error
branch of `handlePull` sends the stored value unmodified). -/
def rejectRaw (exportID : Int) (e : Value) : Value :=
  Value.arr [Value.str "reject", Value.num exportID, e]

/-- `createErrorResponse` from the source. -/
def createErrorResponse (exportID : Int) (errorType message : String) : Value :=
  Value.arr [Value.str "reject", Value.num exportID,
    Value.arr [Value.str "error", Value.str errorType, Value.str message]]

/-- `traversePath` from the source: walk the selectors in order.  String
selectors step into mappings (missing key yields null via Go's zero-value map
read); numeric selectors step into lists with an explicit bounds check; any
other combination errors. -/
def traversePath : Value → List Value → Except String Value
  | current, [] => Except.ok current
  | current, key :: rest =>
    match key with
    | Value.str k =>
      match current with
      | Value.obj fields => traversePath ((objLookup fields k).getD Value.null) rest
      | _ => Except.error "cannot traverse string key on non-object"
    | Value.num k =>
      match current with
      | Value.arr elems =>
        if k < 0 ∨ (elems.length : Int) ≤ k then
          Except.error "array index out of bounds"
        else
          traversePath (elems.getD k.toNat Value.null) rest
      | _ => Except.error "cannot traverse numeric key on non-array"
    | _ => Except.error "invalid path key type"

/-- Resolver state: the session plus the log of export ids dispatched so far
(the log instruments the model; the source has no such log). -/
structure RState where
  sd : SessionData
  log : List Int

mutual

/-- `resolvePipelineReferences` from the source, fuel-indexed.  `none` means
the recursion did not complete within the fuel. -/
def resolvePipelineReferences (d : Dispatcher) :
    Nat → RState → Value → Option (RState × Except String Value)
  | 0, _, _ => none
  | Nat.succ n, st, v =>
    match v with
    | Value.arr elems =>
      match asPipelineRef elems with
      | some (refExportID, rest) =>
        match st.sd.PendingResults refExportID with
        | some result =>
          match refPath rest with
          | some pathArray => some (st, traversePath result pathArray)
          | none => some (st, Except.ok result)
        | none =>
          match st.sd.PendingOperations refExportID with
          | some operation =>
            match resolvePipelineReferences d n st operation.Args with
            | none => none
            | some (st₁, Except.error e) => some (st₁, Except.error e)
            | some (st₁, Except.ok resolvedArgs) =>
              match d operation.Method resolvedArgs with
              | Except.error e => some (st₁, Except.error e)
              | Except.ok result =>
                let st₂ : RState :=
                  { sd := { st₁.sd with
                      PendingResults := Table.set st₁.sd.PendingResults refExportID result
                      PendingOperations := Table.del st₁.sd.PendingOperations refExportID }
                    log := st₁.log ++ [refExportID] }
                match refPath rest with
                | some pathArray => some (st₂, traversePath result pathArray)
                | none => some (st₂, Except.ok result)
          | none =>
            some (st, Except.error
              ("pipeline reference to non-existent export: " ++ toString refExportID))
      | none =>
        match resolveList d n st elems with
        | none => none
        | some (st₁, Except.error e) => some (st₁, Except.error e)
        | some (st₁, Except.ok rs) => some (st₁, Except.ok (Value.arr rs))
    | Value.obj fields =>
      match resolveFields d n st fields with
      | none => none
      | some (st₁, Except.error e) => some (st₁, Except.error e)
      | some (st₁, Except.ok rs) => some (st₁, Except.ok (Value.obj rs))
    | _ => some (st, Except.ok v)

/-- Element-wise resolution of a list that is not a pipeline reference. -/
def resolveList (d : Dispatcher) :
    Nat → RState → List Value → Option (RState × Except String (List Value))
  | 0, _, _ => none
  | Nat.succ _, st, [] => some (st, Except.ok [])
  | Nat.succ n, st, v :: rest =>
    match resolvePipelineReferences d n st v with
    | none => none
    | some (st₁, Except.error e) => some (st₁, Except.error e)
    | some (st₁, Except.ok rv) =>
      match resolveList d n st₁ rest with
      | none => none
      | some (st₂, Except.error e) => some (st₂, Except.error e)
      | some (st₂, Except.ok rvs) => some (st₂, Except.ok (rv :: rvs))

/-- Field-wise resolution of an object. -/
def resolveFields (d : Dispatcher) :
    Nat → RState → List (String × Value) →
    Option (RState × Except String (List (String × Value)))
  | 0, _, _ => none
  | Nat.succ _, st, [] => some (st, Except.ok [])
  | Nat.succ n, st, (k, v) :: rest =>
    match resolvePipelineReferences d n st v with
    | none => none
    | some (st₁, Except.error e) => some (st₁, Except.error e)
    | some (st₁, Except.ok rv) =>
      match resolveFields d n st₁ rest with
      | none => none
      | some (st₂, Except.error e) => some (st₂, Except.error e)
      | some (st₂, Except.ok rvs) => some (st₂, Except.ok ((k, rv) :: rvs))

end

/-- `handlePull` from the source.  Returns the updated session, the log of
export ids dispatched during argument resolution, and the single response
message.  `none` means argument resolution did not finish within the fuel. -/
def handlePull (d : Dispatcher) (fuel : Nat) (sessionData : SessionData)
    (exportID : Int) : Option (SessionData × List Int × Value) :=
  match sessionData.PendingResults exportID with
  | some result =>
    let sd' : SessionData :=
      { sessionData with
        PendingResults := Table.del sessionData.PendingResults exportID }
    if isErrorShaped result then
      some (sd', [], rejectRaw exportID result)
    else
      some (sd', [], resolveMsg exportID result)
  | none =>
    match sessionData.PendingOperations exportID with
    | some operation =>
      match resolvePipelineReferences d fuel { sd := sessionData, log := [] } operation.Args with
      | none => none
      | some (st', Except.error e) =>
        some (st'.sd, st'.log, createErrorResponse exportID "PipelineError" e)
      | some (st', Except.ok resolvedArgs) =>
        let dres := d operation.Method resolvedArgs
        let sd₂ : SessionData :=
          { st'.sd with
            PendingOperations := Table.del st'.sd.PendingOperations exportID }
        match dres with
        | Except.error e =>
          some (sd₂, st'.log, createErrorResponse exportID "MethodError" e)
        | Except.ok result =>
          let sd₃ : SessionData :=
            { sd₂ with PendingResults := Table.set sd₂.PendingResults exportID result }
          some (sd₃, st'.log, resolveMsg exportID result)
    | none =>
      some (sessionData, [],
        createErrorResponse exportID "ExportNotFound" "Export ID not found")

/-- `handlePush` from the source: a non-list or empty-list body returns without
touching the session; any non-empty list body allocates the next export id;
only a well-formed pipeline call additionally registers a pending operation. -/
def handlePush (sessionData : SessionData) (pushData : Value) : SessionData :=
  match pushData with
  | Value.arr (p0 :: prest) =>
    let exportID := sessionData.NextExportID
    let sd1 : SessionData := { sessionData with NextExportID := exportID + 1 }
    match p0, prest with
    | Value.str s, Value.num _importID :: Value.arr (Value.str method :: _) :: restArgs =>
      if s = "pipeline" then
        { sd1 with
          PendingOperations := Table.set sd1.PendingOperations exportID
            { Method := method, Args := restArgs.headD (Value.arr []) } }
      else sd1
    | _, _ => sd1
  | _ => sessionData

/-- `HandleMessage` from the source, on the decoded message value.  The
response is `some` of a single outbound message for a well-formed pull and
`none` otherwise (the source returns the empty string both for no-response
messages and for the malformed-message error returns; no state changes in
either case).  `handleRelease` and `handleAbort` only log, so the release and
abort branches leave the session untouched. -/
def HandleMessage (d : Dispatcher) (fuel : Nat) (sessionData : SessionData)
    (msg : Value) : Option (SessionData × Option Value) :=
  match msg with
  | Value.arr (first :: rest) =>
    match first with
    | Value.str tag =>
      if tag = "push" then
        match rest with
        | body :: _ => some (handlePush sessionData body, none)
        | [] => some (sessionData, none)
      else if tag = "pull" then
        match rest with
        | Value.num exportID :: _ =>
          match handlePull d fuel sessionData exportID with
          | none => none
          | some (sd', _, response) => some (sd', some response)
        | _ => some (sessionData, none)
      else if tag = "release" then
        some (sessionData, none)
      else if tag = "abort" then
        some (sessionData, none)
      else
        some (sessionData, none)
    | _ => some (sessionData, none)
  | _ => some (sessionData, none)

/-- One session step: some inbound message was handled (with some fuel),
moving the session from `sd` to `sd'`. -/
inductive Step (d : Dispatcher) : SessionData → SessionData → Prop
  | mk (msg : Value) (fuel : Nat) (sd sd' : SessionData) (out : Option Value)
      (h : HandleMessage d fuel sd msg = some (sd', out)) : Step d sd sd'

/-- A session state reachable from a fresh session by handling messages. -/
def Reachable (d : Dispatcher) (sd : SessionData) : Prop :=
  Relation.ReflTransGen (Step d) NewSessionData sd

/-- An export id is in at most one of the two tables. -/
def DisjointTables (sd : SessionData) : Prop :=
  ∀ i, sd.PendingOperations i = none ∨ sd.PendingResults i = none

/-- What one run of the resolver preserves about the session: the id counter
is untouched, the pending table only shrinks, the results table only grows,
new results come only from formerly pending ids, and table disjointness is
preserved. -/
def ResPres (st st' : RState) : Prop :=
  st'.sd.NextExportID = st.sd.NextExportID ∧
  (∀ i, st.sd.PendingOperations i = none → st'.sd.PendingOperations i = none) ∧
  (∀ i, st.sd.PendingResults i ≠ none → st'.sd.PendingResults i ≠ none) ∧
  (∀ i, st'.sd.PendingResults i ≠ none →
    st.sd.PendingResults i ≠ none ∨ st.sd.PendingOperations i ≠ none) ∧
  (∀ i, st.sd.PendingOperations i ≠ none →
    st'.sd.PendingOperations i ≠ none ∨ st'.sd.PendingResults i ≠ none) ∧
  (DisjointTables st.sd → DisjointTables st'.sd)

/-- The session invariant: the tables are disjoint and every known id is below
the id counter. -/
def GoodState (sd : SessionData) : Prop :=
  DisjointTables sd ∧
  ∀ i, (sd.PendingOperations i ≠ none ∨ sd.PendingResults i ≠ none) →
    i < sd.NextExportID

/-- A trivial dispatcher used to instantiate theorems at concrete inputs. -/
def dNull : Dispatcher := fun _ _ => Except.ok Value.null

/-- Whether a push body consumes an export id: any non-empty list body does. -/
def pushAllocates : Value → Bool
  | Value.arr (_ :: _) => true
  | _ => false

/-- The push-body well-formedness test of `handlePush`: a pipeline call with a
numeric import id, a non-empty list method path headed by a string, and an
optional args slot defaulting to the empty list. -/
def parsePushBody : List Value → Option Operation
  | Value.str s :: Value.num _ :: Value.arr (Value.str method :: _) :: restArgs =>
      if s = "pipeline" then
        some { Method := method, Args := restArgs.headD (Value.arr []) }
      else none
  | _ => none

/-- The two path-walking error kinds named by the specification. -/
inductive PathErrKind where
  | pathOutOfBounds : PathErrKind
  | badPath : PathErrKind
deriving DecidableEq

/-- Path walking as worded by the specification: a string selector on a
mapping steps into that key (missing key yields null); an integer selector on
a list steps into that index when in range and fails with `PathOutOfBounds`
when out of range; any other selector/value combination fails with
`BadPath`. -/
def traversePathSpec : Value → List Value → Except PathErrKind Value
  | current, [] => Except.ok current
  | current, s :: rest =>
    match s, current with
    | Value.str k, Value.obj fields =>
        traversePathSpec ((objLookup fields k).getD Value.null) rest
    | Value.num k, Value.arr elems =>
        if 0 ≤ k ∧ k < (elems.length : Int) then
          traversePathSpec (elems.getD k.toNat Value.null) rest
        else Except.error PathErrKind.pathOutOfBounds
    | _, _ => Except.error PathErrKind.badPath

/-- Which error kind each of the source's error strings denotes. -/
def errKindOfMsg (m : String) : Option PathErrKind :=
  if m = "array index out of bounds" then some PathErrKind.pathOutOfBounds
  else if m = "cannot traverse string key on non-object" ∨
          m = "cannot traverse numeric key on non-array" ∨
          m = "invalid path key type" then some PathErrKind.badPath
  else none

/-- Agreement between the source's path walk and the specification's: same
value on success, and an error string of the kind named by the spec on
failure. -/
def PathAgree : Except String Value → Except PathErrKind Value → Prop
  | Except.ok a, Except.ok b => a = b
  | Except.error m, Except.error k => errKindOfMsg m = some k
  | _, _ => False

/-- A dispatcher returning a list, as in the list-wrapping scenario. -/
def dList : Dispatcher := fun _ _ => Except.ok (Value.arr [Value.str "a", Value.str "b"])

/-- A session with a cached list result for id 1. -/
def sdW6 : SessionData :=
  { PendingResults := Table.set Table.empty 1 (Value.arr [Value.num 1, Value.num 2])
    PendingOperations := Table.empty
    NextExportID := 2 }

/-- A session with a pending operation for id 1 whose dispatch returns a list. -/
def sdW6b : SessionData :=
  handlePush NewSessionData
    (Value.arr [Value.str "pipeline", Value.num 0,
      Value.arr [Value.str "getNotes"], Value.arr []])

/-- The hello-world dispatcher of the repository's first example scenario. -/
def dHello : Dispatcher := fun m _ =>
  if m = "hello" then Except.ok (Value.str "Hello, World!")
  else Except.error ("method not found: " ++ m)

/-- The session after pushing `hello(["World"])` on a fresh session. -/
def sdA : SessionData :=
  handlePush NewSessionData
    (Value.arr [Value.str "pipeline", Value.num 0,
      Value.arr [Value.str "hello"], Value.arr [Value.str "World"]])

/-- The first pull of export id 1 on `sdA`. -/
def pullA1 : Option (SessionData × List Int × Value) := handlePull dHello 3 sdA 1

/-- The session state after the first pull of id 1. -/
def sdA1 : SessionData := (pullA1.map Prod.fst).getD NewSessionData

/-- The second pull of export id 1, after the first succeeded. -/
def pullA2 : Option (SessionData × List Int × Value) := handlePull dHello 3 sdA1 1

/-- A session with a pending operation for id 1 whose args contain a pipeline
reference to the nonexistent export 99. -/
def sdB : SessionData :=
  handlePush NewSessionData
    (Value.arr [Value.str "pipeline", Value.num 0, Value.arr [Value.str "m"],
      Value.arr [Value.arr [Value.str "pipeline", Value.num 99]]])

/-- The first pull of export id 1 on `sdB`. -/
def pullB1 : Option (SessionData × List Int × Value) := handlePull dNull 5 sdB 1

/-- The second pull of export id 1 on the session left by the first. -/
def pullB2 : Option (SessionData × List Int × Value) :=
  pullB1.bind fun t => handlePull dNull 5 t.1 1

/-- The pending operation registered in `sdB`. -/
def opB : Operation :=
  { Method := "m"
    Args := Value.arr [Value.arr [Value.str "pipeline", Value.num 99]] }

/-- A pipeline reference to export id 1, used as the args of export id 1
itself: the self-referential payload. -/
def selfRefArgs : Value := Value.arr [Value.str "pipeline", Value.num 1]

/-- The session after pushing a call whose args are a pipeline reference to
the id the push itself allocates (id 1): reachable from a fresh session with
the single message `["push",["pipeline",0,["m"],["pipeline",1]]]`. -/
def sdSelfRef : SessionData :=
  handlePush NewSessionData
    (Value.arr [Value.str "pipeline", Value.num 0,
      Value.arr [Value.str "m"], selfRefArgs])

/-- The state edit performed by the resolver's cache-and-drain step for id
`k` with dispatched value `w`. -/
def cachePost (st : RState) (k : Int) (w : Value) : RState :=
  { sd := { st.sd with
      PendingResults := Table.set st.sd.PendingResults k w
      PendingOperations := Table.del st.sd.PendingOperations k }
    log := st.log ++ [k] }

/-- Timeline reachability: `st'` arises from `st` by completed resolver runs
(of values, lists or field lists) and justified cache steps, all at fuel
below the bound `B`. -/
inductive ExtFromB (d : Dispatcher) (B : Nat) : RState → RState → Prop
  | refl (st : RState) : ExtFromB d B st st
  | stepV {st st₂ st₃ : RState} {m : Nat} {v : Value} {res : Except String Value} :
      ExtFromB d B st st₂ → m < B →
      resolvePipelineReferences d m st₂ v = some (st₃, res) →
      ExtFromB d B st st₃
  | stepL {st st₂ st₃ : RState} {m : Nat} {vs : List Value}
      {res : Except String (List Value)} :
      ExtFromB d B st st₂ → m < B →
      resolveList d m st₂ vs = some (st₃, res) →
      ExtFromB d B st st₃
  | stepF {st st₂ st₃ : RState} {m : Nat} {fs : List (String × Value)}
      {res : Except String (List (String × Value))} :
      ExtFromB d B st st₂ → m < B →
      resolveFields d m st₂ fs = some (st₃, res) →
      ExtFromB d B st st₃
  | cache {st ge : RState} (κ : Int) (w : Value) :
      ExtFromB d B st ge →
      ExtFromB d B st (cachePost ge κ w)

/-- Per-run accounting facts: dispatch counts only grow, pending entries are
never modified (only deleted), a known result never disappears, a pending id
stays known, and a newly appearing result witnesses a strictly increased
dispatch count for its id; the log is append-only. -/
def RF (st st' : RState) : Prop :=
  (∀ i, List.count i st.log ≤ List.count i st'.log) ∧
  (∀ i op', st'.sd.PendingOperations i = some op' →
    st.sd.PendingOperations i = some op') ∧
  (∀ i, st.sd.PendingResults i ≠ none → st'.sd.PendingResults i ≠ none) ∧
  (∀ i, st.sd.PendingOperations i ≠ none →
    st'.sd.PendingOperations i ≠ none ∨ st'.sd.PendingResults i ≠ none) ∧
  (∀ i, st.sd.PendingResults i = none → st'.sd.PendingResults i ≠ none →
    List.count i st.log < List.count i st'.log) ∧
  (∃ new, st'.log = st.log ++ new)

/-- Timeline reachability through completed resolver runs only (no bare cache
edits): the chains that arise on the replay side. -/
inductive ExtR (d : Dispatcher) (B : Nat) : RState → RState → Prop
  | refl (st : RState) : ExtR d B st st
  | stepV {st st₂ st₃ : RState} {m : Nat} {v : Value} {res : Except String Value} :
      ExtR d B st st₂ → m < B →
      resolvePipelineReferences d m st₂ v = some (st₃, res) →
      ExtR d B st st₃
  | stepL {st st₂ st₃ : RState} {m : Nat} {vs : List Value}
      {res : Except String (List Value)} :
      ExtR d B st st₂ → m < B →
      resolveList d m st₂ vs = some (st₃, res) →
      ExtR d B st st₃
  | stepF {st st₂ st₃ : RState} {m : Nat} {fs : List (String × Value)}
      {res : Except String (List (String × Value))} :
      ExtR d B st st₂ → m < B →
      resolveFields d m st₂ fs = some (st₃, res) →
      ExtR d B st st₃

/-- A provenance certificate for the computation of id `k` between `lo` and
`hi`: some intermediate state reached from `lo` had `k` pending and
uncomputed, its args resolved to completion successfully, and the state just
after the corresponding cache edit leads on to `hi`. -/
def Cert (d : Dispatcher) (B : Nat) (k : Int) (lo hi : RState) : Prop :=
  ∃ stₓ certEnd rₐ m opk,
    ExtR d B lo stₓ ∧
    stₓ.sd.PendingResults k = none ∧
    stₓ.sd.PendingOperations k = some opk ∧
    m < B ∧
    resolvePipelineReferences d m stₓ opk.Args = some (certEnd, Except.ok rₐ) ∧
    ∃ w, ExtFromB d B (cachePost certEnd k w) hi

/-- A resolver target: a value, a list of values, or a field list. -/
inductive RTarget where
  | V (v : Value) : RTarget
  | L (vs : List Value) : RTarget
  | F (fs : List (String × Value)) : RTarget

/-- Whether an `Except` result is an error. -/
def isErr {α : Type} : Except String α → Bool
  | Except.error _ => true
  | Except.ok _ => false

/-- Run the resolver on a target, forgetting the payload but keeping the end
state and whether the result was an error. -/
def targetRun (d : Dispatcher) (m : Nat) (st : RState) :
    RTarget → Option (RState × Bool)
  | RTarget.V v => (resolvePipelineReferences d m st v).map fun p => (p.1, isErr p.2)
  | RTarget.L vs => (resolveList d m st vs).map fun p => (p.1, isErr p.2)
  | RTarget.F fs => (resolveFields d m st fs).map fun p => (p.1, isErr p.2)

/-- The path a resolver run takes from a start state to the entry of a
pipeline-reference activation for id `j` (the "site"): directly at a
reference to `j`, inside the argument resolution of some encountered pending
reference, or inside an element after an ok prefix. -/
inductive ReachSite (d : Dispatcher) (B : Nat) (j : Int) :
    RState → RTarget → RState → Prop
  | here {st : RState} {elems rest : List Value} {op : Operation} :
      asPipelineRef elems = some (j, rest) →
      st.sd.PendingResults j = none →
      st.sd.PendingOperations j = some op →
      ReachSite d B j st (RTarget.V (Value.arr elems)) st
  | viaRef {st stᵦ st_g : RState} {elems rest : List Value} {k : Int}
      {opk : Operation} {f_k : Nat} {res_g : Except String Value} :
      asPipelineRef elems = some (k, rest) →
      st.sd.PendingResults k = none →
      st.sd.PendingOperations k = some opk →
      f_k < B →
      resolvePipelineReferences d f_k st opk.Args = some (st_g, res_g) →
      ExtFromB d B stᵦ st_g →
      ReachSite d B j st (RTarget.V opk.Args) stᵦ →
      ReachSite d B j st (RTarget.V (Value.arr elems)) stᵦ
  | viaList {st stᵦ : RState} {elems : List Value} :
      asPipelineRef elems = none →
      ReachSite d B j st (RTarget.L elems) stᵦ →
      ReachSite d B j st (RTarget.V (Value.arr elems)) stᵦ
  | viaObj {st stᵦ : RState} {fields : List (String × Value)} :
      ReachSite d B j st (RTarget.F fields) stᵦ →
      ReachSite d B j st (RTarget.V (Value.obj fields)) stᵦ
  | lhead {st stᵦ : RState} {v : Value} {rest : List Value} :
      ReachSite d B j st (RTarget.V v) stᵦ →
      ReachSite d B j st (RTarget.L (v :: rest)) stᵦ
  | ltail {st st₁ stᵦ : RState} {v : Value} {rest : List Value} {f : Nat}
      {r₀ : Value} :
      f < B →
      resolvePipelineReferences d f st v = some (st₁, Except.ok r₀) →
      ReachSite d B j st₁ (RTarget.L rest) stᵦ →
      ReachSite d B j st (RTarget.L (v :: rest)) stᵦ
  | fhead {st stᵦ : RState} {ky : String} {v : Value}
      {rest : List (String × Value)} :
      ReachSite d B j st (RTarget.V v) stᵦ →
      ReachSite d B j st (RTarget.F ((ky, v) :: rest)) stᵦ
  | ftail {st st₁ stᵦ : RState} {ky : String} {v : Value}
      {rest : List (String × Value)} {f : Nat} {r₀ : Value} :
      f < B →
      resolvePipelineReferences d f st v = some (st₁, Except.ok r₀) →
      ReachSite d B j st₁ (RTarget.F rest) stᵦ →
      ReachSite d B j st (RTarget.F ((ky, v) :: rest)) stᵦ

/-- A site bundle for id `j` over a run from `st` on target `t` ending at
`st'`: a reachable site `stᵦ` with `j` pending and uncomputed, reached with
the dispatch count of `j` unchanged, whose guard (the resolution of `j`'s own
arguments) completed successfully without dispatching `j`, and from which the
run's end state follows. -/
def SiteBundle (d : Dispatcher) (B : Nat) (j : Int) (st : RState)
    (t : RTarget) (st' : RState) : Prop :=
  ∃ stᵦ opj m₂ st₃ rₐ,
    ReachSite d B j st t stᵦ ∧
    List.count j stᵦ.log = List.count j st.log ∧
    stᵦ.sd.PendingResults j = none ∧
    stᵦ.sd.PendingOperations j = some opj ∧
    m₂ < B ∧
    resolvePipelineReferences d m₂ stᵦ opj.Args = some (st₃, Except.ok rₐ) ∧
    List.count j st₃.log = List.count j stᵦ.log ∧
    ExtFromB d B stᵦ st'

/-- The dispatch log is duplicate-free, and every logged id has been drained
from the pending table and cached in the results table. -/
def LogOK (st : RState) : Prop :=
  st.log.Nodup ∧
  ∀ k, k ∈ st.log →
    st.sd.PendingOperations k = none ∧ st.sd.PendingResults k ≠ none

/-- A dispatcher for the diamond scenario: every call succeeds with `7`. -/
def dC4 : Dispatcher := fun _ _ => Except.ok (Value.num 7)

/-- The operation behind export id 1 of the diamond scenario. -/
def opC4a : Operation := { Method := "getUser", Args := Value.arr [] }

/-- The operation behind export id 2: its argument tree holds two pipeline
references to export id 1 (a diamond). -/
def opC4b : Operation :=
  { Method := "combine",
    Args := Value.arr [Value.arr [Value.str "pipeline", Value.num 1],
                       Value.arr [Value.str "pipeline", Value.num 1]] }

/-- The diamond session: ids 1 and 2 pending, next id 3. -/
def sdC4 : SessionData :=
  { PendingResults := Table.empty
    PendingOperations := Table.set (Table.set Table.empty 1 opC4a) 2 opC4b
    NextExportID := 3 }

/-- Pulling export id 2 of the diamond session. -/
def pullC4 : Option (SessionData × List Int × Value) := handlePull dC4 6 sdC4 2

/-- The session after the diamond pull. -/
def sdC4' : SessionData := (pullC4.getD (NewSessionData, [], Value.null)).1

/-- The export ids dispatched during the diamond pull. -/
def lgC4 : List Int := (pullC4.getD (NewSessionData, [], Value.null)).2.1

/-- The response message of the diamond pull. -/
def msgC4 : Value := (pullC4.getD (NewSessionData, [], Value.null)).2.2

theorem resPres_self (st : RState) : ResPres st st :=
  ⟨rfl, fun _ h => h, fun _ h => h, fun _ h => Or.inl h, fun _ h => Or.inl h,
    fun h => h⟩

theorem ResPres.ptrans {a b c : RState} (h₁ : ResPres a b) (h₂ : ResPres b c) :
    ResPres a c := by
  obtain ⟨n₁, p₁, r₁, f₁, k₁, d₁⟩ := h₁
  obtain ⟨n₂, p₂, r₂, f₂, k₂, d₂⟩ := h₂
  refine ⟨n₂.trans n₁, fun i h => p₂ i (p₁ i h), fun i h => r₂ i (r₁ i h), ?_, ?_,
    fun h => d₂ (d₁ h)⟩
  · intro i h
    rcases f₂ i h with h' | h'
    · exact f₁ i h'
    · by_cases hp : a.sd.PendingOperations i = none
      · exact absurd (p₁ i hp) h'
      · exact Or.inr hp
  · intro i h
    rcases k₁ i h with h' | h'
    · exact k₂ i h'
    · exact Or.inr (r₂ i h')

/-- The cache-and-drain step of the resolver preserves `ResPres`, provided the
dispatched id is in one of the two tables beforehand. -/
theorem ResPres.pcache (st₁ : RState) (refExportID : Int) (result : Value)
    (hp : st₁.sd.PendingResults refExportID ≠ none ∨
          st₁.sd.PendingOperations refExportID ≠ none) :
    ResPres st₁
      { sd := { st₁.sd with
          PendingResults := Table.set st₁.sd.PendingResults refExportID result
          PendingOperations := Table.del st₁.sd.PendingOperations refExportID }
        log := st₁.log ++ [refExportID] } := by
  refine ⟨rfl, ?_, ?_, ?_, ?_, ?_⟩
  · intro i h
    simp only [Table.del]
    split <;> simp [h]
  · intro i h
    simp only [Table.set]
    split <;> simp [h]
  · intro i h
    simp only [Table.set] at h
    split at h
    · next heq => subst heq; exact hp
    · exact Or.inl h
  · intro i h
    simp only [Table.set, Table.del]
    by_cases hi : i = refExportID
    · subst hi; simp
    · simp only [if_neg hi]
      exact Or.inl h
  · intro hD i
    simp only [Table.set, Table.del]
    by_cases hi : i = refExportID
    · subst hi; simp
    · simp only [if_neg hi]
      exact hD i

/-- One run of the resolver (at any fuel, on a value, a list of values, or a
field list) satisfies `ResPres`. -/
theorem resolve_pres (d : Dispatcher) :
    ∀ n : Nat,
      (∀ st v out, resolvePipelineReferences d n st v = some out → ResPres st out.1) ∧
      (∀ st vs out, resolveList d n st vs = some out → ResPres st out.1) ∧
      (∀ st fs out, resolveFields d n st fs = some out → ResPres st out.1) := by
  intro n
  induction n with
  | zero =>
    refine ⟨?_, ?_, ?_⟩ <;> intro st x out h <;>
      simp [resolvePipelineReferences, resolveList, resolveFields] at h
  | succ n ih =>
    obtain ⟨ih₁, ih₂, ih₃⟩ := ih
    refine ⟨?_, ?_, ?_⟩
    · intro st v out h
      cases v with
      | arr elems =>
        simp only [resolvePipelineReferences] at h
        rcases href : asPipelineRef elems with _ | ⟨refExportID, rest⟩ <;>
          simp only [href] at h
        · -- not a pipeline reference: element-wise resolution
          rcases hl : resolveList d n st elems with _ | ⟨st₁, res⟩ <;> simp only [hl] at h
          · simp at h
          · have hpres := ih₂ st elems _ hl
            cases res <;> simp only [Option.some.injEq] at h <;> subst h <;>
              exact hpres
        · -- a pipeline reference
          rcases hres : st.sd.PendingResults refExportID with _ | result <;>
            simp only [hres] at h
          · rcases hop : st.sd.PendingOperations refExportID with _ | operation <;>
              simp only [hop] at h
            · -- unknown export
              simp only [Option.some.injEq] at h
              subst h; exact resPres_self st
            · -- pending operation: resolve args, dispatch, cache
              rcases hargs : resolvePipelineReferences d n st operation.Args with
                _ | ⟨st₁, argsRes⟩ <;> simp only [hargs] at h
              · simp at h
              · have hpres₁ := ih₁ st operation.Args _ hargs
                cases argsRes with
                | error e =>
                  simp only [Option.some.injEq] at h; subst h; exact hpres₁
                | ok resolvedArgs =>
                  rcases hdisp : d operation.Method resolvedArgs with e | result <;>
                    simp only [hdisp] at h
                  · simp only [Option.some.injEq] at h; subst h; exact hpres₁
                  · have hfrom : st₁.sd.PendingResults refExportID ≠ none ∨
                        st₁.sd.PendingOperations refExportID ≠ none := by
                      rcases hpres₁.2.2.2.2.1 refExportID (by simp [hop]) with h' | h'
                      · exact Or.inr h'
                      · exact Or.inl h'
                    have hstep := ResPres.pcache st₁ refExportID result hfrom
                    rcases hpath : refPath rest with _ | pathArray <;>
                      simp only [hpath] at h <;>
                      simp only [Option.some.injEq] at h <;> subst h <;>
                      exact hpres₁.ptrans hstep
          · -- cached result
            rcases hpath : refPath rest with _ | pathArray <;> simp only [hpath] at h <;>
              simp only [Option.some.injEq] at h <;> subst h <;> exact resPres_self st
      | obj fields =>
        simp only [resolvePipelineReferences] at h
        rcases hf : resolveFields d n st fields with _ | ⟨st₁, res⟩ <;> simp only [hf] at h
        · simp at h
        · have hpres := ih₃ st fields _ hf
          cases res <;> simp only [Option.some.injEq] at h <;> subst h <;> exact hpres
      | null =>
        simp only [resolvePipelineReferences, Option.some.injEq] at h
        subst h; exact resPres_self st
      | bool b =>
        simp only [resolvePipelineReferences, Option.some.injEq] at h
        subst h; exact resPres_self st
      | num m =>
        simp only [resolvePipelineReferences, Option.some.injEq] at h
        subst h; exact resPres_self st
      | str s =>
        simp only [resolvePipelineReferences, Option.some.injEq] at h
        subst h; exact resPres_self st
    · intro st vs out h
      cases vs with
      | nil =>
        simp only [resolveList, Option.some.injEq] at h
        subst h; exact resPres_self st
      | cons v rest =>
        simp only [resolveList] at h
        rcases hv : resolvePipelineReferences d n st v with _ | ⟨st₁, rv⟩ <;>
          simp only [hv] at h
        · simp at h
        · have hpres₁ := ih₁ st v _ hv
          cases rv with
          | error e => simp only [Option.some.injEq] at h; subst h; exact hpres₁
          | ok rv =>
            rcases hrest : resolveList d n st₁ rest with _ | ⟨st₂, rvs⟩ <;>
              simp only [hrest] at h
            · simp at h
            · have hpres₂ := ih₂ st₁ rest _ hrest
              cases rvs <;> simp only [Option.some.injEq] at h <;> subst h <;>
                exact hpres₁.ptrans hpres₂
    · intro st fs out h
      cases fs with
      | nil =>
        simp only [resolveFields, Option.some.injEq] at h
        subst h; exact resPres_self st
      | cons kv rest =>
        obtain ⟨k, v⟩ := kv
        simp only [resolveFields] at h
        rcases hv : resolvePipelineReferences d n st v with _ | ⟨st₁, rv⟩ <;>
          simp only [hv] at h
        · simp at h
        · have hpres₁ := ih₁ st v _ hv
          cases rv with
          | error e => simp only [Option.some.injEq] at h; subst h; exact hpres₁
          | ok rv =>
            rcases hrest : resolveFields d n st₁ rest with _ | ⟨st₂, rvs⟩ <;>
              simp only [hrest] at h
            · simp at h
            · have hpres₂ := ih₃ st₁ rest _ hrest
              cases rvs <;> simp only [Option.some.injEq] at h <;> subst h <;>
                exact hpres₁.ptrans hpres₂

/-- What handling one `pull` preserves about the session: the id counter is
untouched, the pending table only shrinks, results only come from formerly
known ids, and table disjointness is preserved. -/
theorem handlePull_pres {d : Dispatcher} {fuel : Nat} {sd : SessionData}
    {exportID : Int} {sd' : SessionData} {log : List Int} {msg : Value}
    (h : handlePull d fuel sd exportID = some (sd', log, msg)) :
    sd'.NextExportID = sd.NextExportID ∧
    (∀ j, sd.PendingOperations j = none → sd'.PendingOperations j = none) ∧
    (∀ j, sd'.PendingResults j ≠ none →
      sd.PendingResults j ≠ none ∨ sd.PendingOperations j ≠ none) ∧
    (DisjointTables sd → DisjointTables sd') := by
  simp only [handlePull] at h
  rcases hres : sd.PendingResults exportID with _ | result <;> simp only [hres] at h
  · rcases hop : sd.PendingOperations exportID with _ | operation <;>
      simp only [hop] at h
    · -- ExportNotFound: session unchanged
      simp only [Option.some.injEq, Prod.mk.injEq] at h
      obtain ⟨rfl, -, -⟩ := h
      exact ⟨rfl, fun _ hj => hj, fun _ hj => Or.inl hj, fun hD => hD⟩
    · -- pending operation
      rcases hargs : resolvePipelineReferences d fuel { sd := sd, log := [] }
          operation.Args with _ | ⟨st', argsRes⟩ <;> simp only [hargs] at h
      · simp at h
      · have hpres : ResPres { sd := sd, log := [] } st' :=
          ((resolve_pres d fuel).1 _ _ _ hargs)
        obtain ⟨hnext, hshrink, -, hfrom, -, hdisj⟩ := hpres
        cases argsRes with
        | error e =>
          simp only [Option.some.injEq, Prod.mk.injEq] at h
          obtain ⟨rfl, -, -⟩ := h
          exact ⟨hnext, hshrink, hfrom, hdisj⟩
        | ok resolvedArgs =>
          rcases hdisp : d operation.Method resolvedArgs with e | result <;>
            simp only [hdisp] at h <;>
            simp only [Option.some.injEq, Prod.mk.injEq] at h <;>
            obtain ⟨rfl, -, -⟩ := h
          · -- dispatcher error: pending operation dropped
            refine ⟨hnext, ?_, hfrom, ?_⟩
            · intro j hj
              simp only [Table.del]
              split <;> simp [hshrink j hj]
            · intro hD
              intro i
              rcases hdisj hD i with h' | h'
              · left; simp only [Table.del]; split <;> simp [h']
              · right; exact h'
          · -- dispatcher success: pending dropped, result stored
            refine ⟨hnext, ?_, ?_, ?_⟩
            · intro j hj
              simp only [Table.del]
              split <;> simp [hshrink j hj]
            · intro j hj
              simp only [Table.set] at hj
              split at hj
              · next heq => subst heq; right; simp [hop]
              · exact hfrom j hj
            · intro hD
              intro i
              by_cases hi : i = exportID
              · subst hi; left; simp [Table.del]
              · simp only [Table.set, Table.del, if_neg hi]
                exact hdisj hD i
  · -- cached result: removed, sent as resolve or reject
    have hsd' : sd' =
        { sd with PendingResults := Table.del sd.PendingResults exportID } := by
      split at h <;> simp only [Option.some.injEq, Prod.mk.injEq] at h <;>
        exact h.1.symm
    subst hsd'
    refine ⟨rfl, fun _ hj => hj, ?_, ?_⟩
    · intro j hj
      simp only [Table.del] at hj
      split at hj
      · simp at hj
      · exact Or.inl hj
    · intro hD i
      rcases hD i with h' | h'
      · left; exact h'
      · right; simp only [Table.del]; split <;> simp [h']

/-- The three possible shapes of a `handlePush` result: body not a non-empty
list (no change), malformed non-empty list body (id consumed, nothing
registered), or a well-formed pipeline call (id consumed and registered). -/
theorem handlePush_cases (sd : SessionData) (b : Value) :
    handlePush sd b = sd ∨
    handlePush sd b = { sd with NextExportID := sd.NextExportID + 1 } ∨
    ∃ op, handlePush sd b =
      { sd with NextExportID := sd.NextExportID + 1,
                PendingOperations :=
                  Table.set sd.PendingOperations sd.NextExportID op } := by
  cases b with
  | arr elems =>
    cases elems with
    | nil => exact Or.inl rfl
    | cons p0 prest =>
      simp only [handlePush]
      split
      · split
        · right; right
          exact ⟨_, rfl⟩
        · right; left; rfl
      · right; left; rfl
  | null => exact Or.inl rfl
  | bool _ => exact Or.inl rfl
  | num _ => exact Or.inl rfl
  | str _ => exact Or.inl rfl
  | obj _ => exact Or.inl rfl

/-- The possible shapes of one handled message: the session is unchanged, or
it changed through exactly one `handlePush`, or through exactly one
`handlePull`. -/
theorem HandleMessage_cases {d : Dispatcher} {fuel : Nat} {sd : SessionData}
    {msg : Value} {sd' : SessionData} {out : Option Value}
    (h : HandleMessage d fuel sd msg = some (sd', out)) :
    sd' = sd ∨ (∃ b, sd' = handlePush sd b) ∨
    (∃ i log resp, handlePull d fuel sd i = some (sd', log, resp)) := by
  simp only [HandleMessage] at h
  split at h
  · -- list message with a first element
    split at h
    · -- string tag
      split at h
      · -- push
        split at h
        · simp only [Option.some.injEq, Prod.mk.injEq] at h
          exact Or.inr (Or.inl ⟨_, h.1.symm⟩)
        · simp only [Option.some.injEq, Prod.mk.injEq] at h
          exact Or.inl h.1.symm
      · split at h
        · -- pull
          split at h
          · split at h
            · simp at h
            · next heq =>
              simp only [Option.some.injEq, Prod.mk.injEq] at h
              obtain ⟨rfl, -⟩ := h
              exact Or.inr (Or.inr ⟨_, _, _, heq⟩)
          · simp only [Option.some.injEq, Prod.mk.injEq] at h
            exact Or.inl h.1.symm
        · split at h <;> [skip; split at h] <;>
            simp only [Option.some.injEq, Prod.mk.injEq] at h <;>
            exact Or.inl h.1.symm
    · simp only [Option.some.injEq, Prod.mk.injEq] at h
      exact Or.inl h.1.symm
  · simp only [Option.some.injEq, Prod.mk.injEq] at h
    exact Or.inl h.1.symm

theorem handlePush_good {sd : SessionData} {b : Value} (hg : GoodState sd) :
    GoodState (handlePush sd b) := by
  obtain ⟨hD, hB⟩ := hg
  rcases handlePush_cases sd b with h | h | ⟨op, h⟩ <;> rw [h]
  · exact ⟨hD, hB⟩
  · exact ⟨hD, fun i hi => lt_trans (hB i hi) (lt_add_one _)⟩
  · constructor
    · intro i
      by_cases hi : i = sd.NextExportID
      · subst hi
        right
        by_cases hr : sd.PendingResults sd.NextExportID = none
        · exact hr
        · exact absurd (hB _ (Or.inr hr)) (lt_irrefl _)
      · simpa only [Table.set, if_neg hi] using hD i
    · intro i hi
      simp only [Table.set] at hi
      by_cases hic : i = sd.NextExportID
      · subst hic; exact lt_add_one _
      · simp only [if_neg hic] at hi
        exact lt_trans (hB i hi) (lt_add_one _)

theorem handlePull_good {d : Dispatcher} {fuel : Nat} {sd : SessionData}
    {exportID : Int} {sd' : SessionData} {log : List Int} {msg : Value}
    (h : handlePull d fuel sd exportID = some (sd', log, msg))
    (hg : GoodState sd) : GoodState sd' := by
  obtain ⟨hD, hB⟩ := hg
  obtain ⟨hnext, hshrink, hfrom, hdisj⟩ := handlePull_pres h
  refine ⟨hdisj hD, ?_⟩
  intro i hi
  rw [hnext]
  rcases hi with hi | hi
  · by_cases hp : sd.PendingOperations i = none
    · exact absurd (hshrink i hp) hi
    · exact hB i (Or.inl hp)
  · rcases hfrom i hi with h' | h'
    · exact hB i (Or.inr h')
    · exact hB i (Or.inl h')

theorem Step.good {d : Dispatcher} {sd sd' : SessionData} (h : Step d sd sd')
    (hg : GoodState sd) : GoodState sd' := by
  obtain ⟨msg, fuel, _, _, out, hmsg⟩ := h
  rcases HandleMessage_cases hmsg with rfl | ⟨b, rfl⟩ | ⟨i, log, resp, hp⟩
  · exact hg
  · exact handlePush_good hg
  · exact handlePull_good hp hg

theorem Step.next_mono {d : Dispatcher} {sd sd' : SessionData}
    (h : Step d sd sd') : sd.NextExportID ≤ sd'.NextExportID := by
  obtain ⟨msg, fuel, _, _, out, hmsg⟩ := h
  rcases HandleMessage_cases hmsg with rfl | ⟨b, rfl⟩ | ⟨i, log, resp, hp⟩
  · exact le_refl _
  · rcases handlePush_cases sd b with h' | h' | ⟨op, h'⟩ <;> rw [h'] <;> simp
  · exact le_of_eq (handlePull_pres hp).1.symm

/-- Gap permanence: an id below the counter that is in neither table stays in
neither table (and below the counter) across any step. -/
theorem Step.gap {d : Dispatcher} {sd sd' : SessionData} (h : Step d sd sd')
    {g : Int} (hlt : g < sd.NextExportID)
    (hpo : sd.PendingOperations g = none) (hpr : sd.PendingResults g = none) :
    g < sd'.NextExportID ∧ sd'.PendingOperations g = none ∧
      sd'.PendingResults g = none := by
  have hmono := Step.next_mono h
  refine ⟨lt_of_lt_of_le hlt hmono, ?_⟩
  obtain ⟨msg, fuel, _, _, out, hmsg⟩ := h
  rcases HandleMessage_cases hmsg with rfl | ⟨b, rfl⟩ | ⟨i, log, resp, hp⟩
  · exact ⟨hpo, hpr⟩
  · rcases handlePush_cases sd b with h' | h' | ⟨op, h'⟩ <;> rw [h']
    · exact ⟨hpo, hpr⟩
    · exact ⟨hpo, hpr⟩
    · refine ⟨?_, hpr⟩
      have : g ≠ sd.NextExportID := ne_of_lt hlt
      simp only [Table.set, if_neg this]
      exact hpo
  · obtain ⟨-, hshrink, hfrom, -⟩ := handlePull_pres hp
    refine ⟨hshrink g hpo, ?_⟩
    by_cases hr : sd'.PendingResults g = none
    · exact hr
    · rcases hfrom g hr with h' | h' <;> [exact absurd hpr h'; exact absurd hpo h']

/-- Every reachable session state satisfies the invariant. -/
theorem reachable_good {d : Dispatcher} {sd : SessionData}
    (h : Reachable d sd) : GoodState sd := by
  induction h with
  | refl =>
    refine ⟨fun i => Or.inl rfl, fun i hi => ?_⟩
    rcases hi with hi | hi <;> exact absurd rfl hi
  | tail _ hstep ih => exact Step.good hstep ih

theorem handlePush_skips {sd : SessionData} {b : Value}
    (hb : pushAllocates b = false) : handlePush sd b = sd := by
  cases b with
  | arr elems =>
    cases elems with
    | nil => rfl
    | cons p0 prest => simp [pushAllocates] at hb
  | null => rfl
  | bool _ => rfl
  | num _ => rfl
  | str _ => rfl
  | obj _ => rfl

theorem handlePush_allocates {sd : SessionData} {b : Value}
    (hb : pushAllocates b = true) :
    (handlePush sd b).NextExportID = sd.NextExportID + 1 := by
  cases b with
  | arr elems =>
    cases elems with
    | nil => simp [pushAllocates] at hb
    | cons p0 prest =>
      simp only [handlePush]
      split
      · split <;> rfl
      · rfl
  | null => simp [pushAllocates] at hb
  | bool _ => simp [pushAllocates] at hb
  | num _ => simp [pushAllocates] at hb
  | str _ => simp [pushAllocates] at hb
  | obj _ => simp [pushAllocates] at hb

theorem reach_next_mono {d : Dispatcher} {a b : SessionData}
    (h : Relation.ReflTransGen (Step d) a b) :
    a.NextExportID ≤ b.NextExportID := by
  induction h with
  | refl => exact le_refl _
  | tail _ hstep ih => exact le_trans ih (Step.next_mono hstep)

/-- C5: in every reachable session state, each export id is present in at most
one of `PendingOperations` and `PendingResults` — no operation ever leaves an
id occupying both tables. -/
theorem claim_C5 (d : Dispatcher) (sd : SessionData) (h : Reachable d sd) :
    ∀ i, ¬(sd.PendingOperations i ≠ none ∧ sd.PendingResults i ≠ none) := by
  intro i ⟨hp, hr⟩
  rcases (reachable_good h).1 i with h' | h'
  · exact hp h'
  · exact hr h'

theorem claim_C5_witness :
    ¬(NewSessionData.PendingOperations 1 ≠ none ∧
      NewSessionData.PendingResults 1 ≠ none) :=
  claim_C5 dNull NewSessionData Relation.ReflTransGen.refl 1

/-- C7: export ids are allocated monotonically from 1 per session: the counter
starts at 1, a push with a non-empty list body returns the current counter and
increments it by one (any other push does nothing), every id present in a
reachable state is below the counter, and a push preceding another push in one
session allocates a strictly smaller id. -/
theorem claim_C7 (d : Dispatcher) :
    NewSessionData.NextExportID = 1 ∧
    (∀ sd b, pushAllocates b = false → handlePush sd b = sd) ∧
    (∀ sd b, pushAllocates b = true →
      (handlePush sd b).NextExportID = sd.NextExportID + 1) ∧
    (∀ sd, Reachable d sd → ∀ i,
      (sd.PendingOperations i ≠ none ∨ sd.PendingResults i ≠ none) →
      i < sd.NextExportID) ∧
    (∀ sd₁ b sd₂, pushAllocates b = true →
      Relation.ReflTransGen (Step d) (handlePush sd₁ b) sd₂ →
      sd₁.NextExportID < sd₂.NextExportID) := by
  refine ⟨rfl, fun _ _ hb => handlePush_skips hb,
    fun _ _ hb => handlePush_allocates hb,
    fun sd h i hi => (reachable_good h).2 i hi, ?_⟩
  intro sd₁ b sd₂ hb hreach
  have h1 := @handlePush_allocates sd₁ b hb
  have h2 := reach_next_mono hreach
  omega

theorem claim_C7_witness :
    NewSessionData.NextExportID <
      (handlePush NewSessionData (Value.arr [Value.null])).NextExportID :=
  (claim_C7 dNull).2.2.2.2 NewSessionData (Value.arr [Value.null]) _ rfl
    Relation.ReflTransGen.refl

/-- C9: handling a release or abort message changes no session state and emits
no response; since handling is a function of the state, subsequent messages
are processed exactly as before. -/
theorem claim_C9 (d : Dispatcher) (fuel : Nat) (sd : SessionData)
    (rest : List Value) :
    HandleMessage d fuel sd (Value.arr (Value.str "release" :: rest)) =
      some (sd, none) ∧
    HandleMessage d fuel sd (Value.arr (Value.str "abort" :: rest)) =
      some (sd, none) := by
  constructor <;> rfl

/-- C10: a push whose body is a non-empty list that is not a well-formed
pipeline call still consumes an export id while registering nothing, leaving a
permanent gap (an id in neither table, below the counter, stays unknown across
all further steps); a push whose body is not a list, or is an empty list,
consumes no export id. -/
theorem claim_C10 (d : Dispatcher) :
    (∀ sd b, pushAllocates b = false → handlePush sd b = sd) ∧
    (∀ sd pa, pa ≠ ([] : List Value) → parsePushBody pa = none →
      handlePush sd (Value.arr pa) =
        { sd with NextExportID := sd.NextExportID + 1 }) ∧
    (∀ sd sd' g, g < sd.NextExportID →
      sd.PendingOperations g = none → sd.PendingResults g = none →
      Relation.ReflTransGen (Step d) sd sd' →
      sd'.PendingOperations g = none ∧ sd'.PendingResults g = none) := by
  refine ⟨fun _ _ hb => handlePush_skips hb, ?_, ?_⟩
  · intro sd pa hne hnone
    cases pa with
    | nil => exact absurd rfl hne
    | cons p0 prest =>
      simp only [handlePush]
      split
      · next s method restArgs heq1 heq2 =>
        split
        · next hs =>
          exfalso
          subst hs
          simp [parsePushBody] at hnone
        · rfl
      · rfl
  · intro sd sd' g hlt hpo hpr hreach
    induction hreach with
    | refl => exact ⟨hpo, hpr⟩
    | tail hsteps hstep ih =>
      obtain ⟨ih1, ih2⟩ := ih
      have hlt' : g < _ := lt_of_lt_of_le hlt (reach_next_mono hsteps)
      exact (Step.gap hstep hlt' ih1 ih2).2

theorem claim_C10_witness :
    handlePush NewSessionData Value.null = NewSessionData ∧
    handlePush NewSessionData (Value.arr [Value.str "bogus"]) =
      { NewSessionData with NextExportID := NewSessionData.NextExportID + 1 } ∧
    (NewSessionData.PendingOperations 0 = none ∧
     NewSessionData.PendingResults 0 = none) :=
  ⟨(claim_C10 dNull).1 NewSessionData Value.null rfl,
   (claim_C10 dNull).2.1 NewSessionData [Value.str "bogus"] (by simp) rfl,
   (claim_C10 dNull).2.2 NewSessionData NewSessionData 0 (by norm_num [NewSessionData])
     rfl rfl Relation.ReflTransGen.refl⟩

/-- C8: the source's `traversePath` agrees selector-by-selector with the
specification's path-walking rules: string selectors step into mappings with
missing keys yielding null, integer selectors step into lists with
out-of-range indices failing as `PathOutOfBounds`, and every other
selector/value combination fails as `BadPath`. -/
theorem claim_C8 : ∀ (path : List Value) (v : Value),
    PathAgree (traversePath v path) (traversePathSpec v path) := by
  intro path
  induction path with
  | nil => intro v; simp [traversePath, traversePathSpec, PathAgree]
  | cons s rest ih =>
    intro v
    cases s with
    | str k =>
      cases v with
      | obj fields =>
        simpa only [traversePath, traversePathSpec] using
          ih ((objLookup fields k).getD Value.null)
      | null => simp [traversePath, traversePathSpec, PathAgree, errKindOfMsg]
      | bool b => simp [traversePath, traversePathSpec, PathAgree, errKindOfMsg]
      | num m => simp [traversePath, traversePathSpec, PathAgree, errKindOfMsg]
      | str s' => simp [traversePath, traversePathSpec, PathAgree, errKindOfMsg]
      | arr es => simp [traversePath, traversePathSpec, PathAgree, errKindOfMsg]
    | num k =>
      cases v with
      | arr elems =>
        simp only [traversePath, traversePathSpec]
        by_cases hk : k < 0 ∨ (elems.length : Int) ≤ k
        · rw [if_pos hk, if_neg (by omega)]
          simp [PathAgree, errKindOfMsg]
        · rw [if_neg hk, if_pos (by omega)]
          exact ih _
      | null => simp [traversePath, traversePathSpec, PathAgree, errKindOfMsg]
      | bool b => simp [traversePath, traversePathSpec, PathAgree, errKindOfMsg]
      | num m => simp [traversePath, traversePathSpec, PathAgree, errKindOfMsg]
      | str s' => simp [traversePath, traversePathSpec, PathAgree, errKindOfMsg]
      | obj fs => simp [traversePath, traversePathSpec, PathAgree, errKindOfMsg]
    | null =>
      cases v <;> simp [traversePath, traversePathSpec, PathAgree, errKindOfMsg]
    | bool b =>
      cases v <;> simp [traversePath, traversePathSpec, PathAgree, errKindOfMsg]
    | arr es =>
      cases v <;> simp [traversePath, traversePathSpec, PathAgree, errKindOfMsg]
    | obj fs =>
      cases v <;> simp [traversePath, traversePathSpec, PathAgree, errKindOfMsg]

/-- C6: whenever a pull emits a resolve, the payload is the underlying value
wrapped exactly when it is a list, in both the cached-result branch and the
fresh-dispatch branch; the wrapping rule wraps lists in a one-element list
and leaves every other value unchanged. -/
theorem claim_C6 (d : Dispatcher) (fuel : Nat) (sd : SessionData)
    (exportID : Int) :
    (∀ l, wrapResolve (Value.arr l) = Value.arr [Value.arr l]) ∧
    (∀ r, (∀ l, r ≠ Value.arr l) → wrapResolve r = r) ∧
    (∀ r, sd.PendingResults exportID = some r → isErrorShaped r = false →
      handlePull d fuel sd exportID =
        some ({ sd with PendingResults := Table.del sd.PendingResults exportID },
          [], resolveMsg exportID r)) ∧
    (∀ operation st' resolvedArgs r,
      sd.PendingResults exportID = none →
      sd.PendingOperations exportID = some operation →
      resolvePipelineReferences d fuel { sd := sd, log := [] } operation.Args =
        some (st', Except.ok resolvedArgs) →
      d operation.Method resolvedArgs = Except.ok r →
      handlePull d fuel sd exportID =
        some ({ st'.sd with
            PendingOperations := Table.del st'.sd.PendingOperations exportID
            PendingResults := Table.set st'.sd.PendingResults exportID r },
          st'.log, resolveMsg exportID r)) := by
  refine ⟨fun l => rfl, ?_, ?_, ?_⟩
  · intro r hr
    cases r with
    | arr l => exact absurd rfl (hr l)
    | null => rfl
    | bool b => rfl
    | num m => rfl
    | str s => rfl
    | obj fs => rfl
  · intro r hres herr
    simp only [handlePull, hres, herr, Bool.false_eq_true, if_false]
  · intro operation st' resolvedArgs r hres hop hargs hdisp
    simp only [handlePull, hres, hop, hargs, hdisp]

theorem claim_C6_witness :
    handlePull dNull 1 sdW6 1 =
      some ({ sdW6 with PendingResults := Table.del sdW6.PendingResults 1 },
        [], resolveMsg 1 (Value.arr [Value.num 1, Value.num 2])) ∧
    handlePull dList 2 sdW6b 1 =
      some ({ sdW6b with
          PendingOperations := Table.del sdW6b.PendingOperations 1
          PendingResults := Table.set sdW6b.PendingResults 1
            (Value.arr [Value.str "a", Value.str "b"]) },
        [], resolveMsg 1 (Value.arr [Value.str "a", Value.str "b"])) :=
  ⟨(claim_C6 dNull 1 sdW6 1).2.2.1 (Value.arr [Value.num 1, Value.num 2]) rfl rfl,
   (claim_C6 dList 2 sdW6b 1).2.2.2 { Method := "getNotes", Args := Value.arr [] }
     { sd := sdW6b, log := [] } (Value.arr [])
     (Value.arr [Value.str "a", Value.str "b"]) rfl rfl rfl rfl⟩

/-- The cached-result success branch of `handlePull`, characterized. -/
theorem handlePull_cached {d : Dispatcher} {fuel : Nat} {sd : SessionData}
    {exportID : Int} {r : Value}
    (hres : sd.PendingResults exportID = some r)
    (herr : isErrorShaped r = false) :
    handlePull d fuel sd exportID =
      some ({ sd with PendingResults := Table.del sd.PendingResults exportID },
        [], resolveMsg exportID r) := by
  simp only [handlePull, hres, herr, Bool.false_eq_true, if_false]

/-- The unknown-export branch of `handlePull`, characterized. -/
theorem handlePull_notfound {d : Dispatcher} {fuel : Nat} {sd : SessionData}
    {exportID : Int}
    (h1 : sd.PendingResults exportID = none)
    (h2 : sd.PendingOperations exportID = none) :
    handlePull d fuel sd exportID =
      some (sd, [],
        createErrorResponse exportID "ExportNotFound" "Export ID not found") := by
  simp only [handlePull, h1, h2]

/-- The fresh-dispatch success branch of `handlePull`, characterized. -/
theorem handlePull_dispatch_ok {d : Dispatcher} {fuel : Nat} {sd : SessionData}
    {exportID : Int} {operation : Operation} {st' : RState}
    {resolvedArgs r : Value}
    (hres : sd.PendingResults exportID = none)
    (hop : sd.PendingOperations exportID = some operation)
    (hargs : resolvePipelineReferences d fuel { sd := sd, log := [] }
      operation.Args = some (st', Except.ok resolvedArgs))
    (hdisp : d operation.Method resolvedArgs = Except.ok r) :
    handlePull d fuel sd exportID =
      some ({ st'.sd with
          PendingOperations := Table.del st'.sd.PendingOperations exportID
          PendingResults := Table.set st'.sd.PendingResults exportID r },
        st'.log, resolveMsg exportID r) := by
  simp only [handlePull, hres, hop, hargs, hdisp]

/-- C1 counterexample: after a pull of id 1 that finds 1 in the pending table
and dispatches successfully, id 1 is still in the results table (not unknown),
and a second pull of id 1 returns the cached result as a resolve, not the
ExportNotFound reject. -/
theorem claim_C1_counterexample :
    (pullA1.map fun t => t.2.2) =
      some (resolveMsg 1 (Value.str "Hello, World!")) ∧
    (pullA1.map fun t => t.1.PendingResults 1) =
      some (some (Value.str "Hello, World!")) ∧
    (pullA2.map fun t => t.2.2) =
      some (resolveMsg 1 (Value.str "Hello, World!")) ∧
    (pullA2.map fun t => t.2.2) ≠
      some (createErrorResponse 1 "ExportNotFound" "Export ID not found") := by
  refine ⟨rfl, rfl, rfl, ?_⟩
  intro h
  rw [show (pullA2.map fun t => t.2.2) =
      some (resolveMsg 1 (Value.str "Hello, World!")) from rfl] at h
  simp [resolveMsg, wrapResolve, createErrorResponse] at h

/-- C1 amended: a pull that finds id i pending and whose dispatcher call
succeeds moves i PENDING → COMPUTED: it removes i from the pending table and
stores the result in the results table, so i is still known; a second pull of
i returns the cached result (removing it), and only a third pull of i yields
the ExportNotFound reject. -/
theorem claim_C1_amended (d : Dispatcher) (fuel fuel₂ fuel₃ : Nat)
    (sd : SessionData) (exportID : Int) (operation : Operation) (st' : RState)
    (resolvedArgs r : Value)
    (hres : sd.PendingResults exportID = none)
    (hop : sd.PendingOperations exportID = some operation)
    (hargs : resolvePipelineReferences d fuel { sd := sd, log := [] }
      operation.Args = some (st', Except.ok resolvedArgs))
    (hdisp : d operation.Method resolvedArgs = Except.ok r)
    (herr : isErrorShaped r = false) :
    ∃ sd₁, handlePull d fuel sd exportID =
        some (sd₁, st'.log, resolveMsg exportID r) ∧
      sd₁.PendingOperations exportID = none ∧
      sd₁.PendingResults exportID = some r ∧
      ∃ sd₂, handlePull d fuel₂ sd₁ exportID =
          some (sd₂, [], resolveMsg exportID r) ∧
        sd₂.PendingOperations exportID = none ∧
        sd₂.PendingResults exportID = none ∧
        handlePull d fuel₃ sd₂ exportID =
          some (sd₂, [],
            createErrorResponse exportID "ExportNotFound" "Export ID not found") := by
  refine ⟨_, handlePull_dispatch_ok hres hop hargs hdisp, by simp [Table.del],
    by simp [Table.set], ?_⟩
  refine ⟨_, handlePull_cached (by simp [Table.set]) herr, by simp [Table.del],
    by simp [Table.del], ?_⟩
  exact handlePull_notfound (by simp [Table.del]) (by simp [Table.del])

theorem claim_C1_amended_witness :
    ∃ sd₁, handlePull dHello 3 sdA 1 =
        some (sd₁, [], resolveMsg 1 (Value.str "Hello, World!")) ∧
      sd₁.PendingOperations 1 = none ∧
      sd₁.PendingResults 1 = some (Value.str "Hello, World!") ∧
      ∃ sd₂, handlePull dHello 3 sd₁ 1 =
          some (sd₂, [], resolveMsg 1 (Value.str "Hello, World!")) ∧
        sd₂.PendingOperations 1 = none ∧
        sd₂.PendingResults 1 = none ∧
        handlePull dHello 3 sd₂ 1 =
          some (sd₂, [],
            createErrorResponse 1 "ExportNotFound" "Export ID not found") :=
  claim_C1_amended dHello 3 3 3 sdA 1
    { Method := "hello", Args := Value.arr [Value.str "World"] }
    { sd := sdA, log := [] } (Value.arr [Value.str "World"])
    (Value.str "Hello, World!") rfl rfl rfl rfl rfl

/-- The cached-error branch of `handlePull`, characterized. -/
theorem handlePull_cached_err {d : Dispatcher} {fuel : Nat} {sd : SessionData}
    {exportID : Int} {r : Value}
    (hres : sd.PendingResults exportID = some r)
    (herr : isErrorShaped r = true) :
    handlePull d fuel sd exportID =
      some ({ sd with PendingResults := Table.del sd.PendingResults exportID },
        [], rejectRaw exportID r) := by
  simp only [handlePull, hres, herr, if_true]

/-- The dispatcher-error branch of `handlePull`, characterized. -/
theorem handlePull_dispatch_err {d : Dispatcher} {fuel : Nat} {sd : SessionData}
    {exportID : Int} {operation : Operation} {st' : RState}
    {resolvedArgs : Value} {e : String}
    (hres : sd.PendingResults exportID = none)
    (hop : sd.PendingOperations exportID = some operation)
    (hargs : resolvePipelineReferences d fuel { sd := sd, log := [] }
      operation.Args = some (st', Except.ok resolvedArgs))
    (hdisp : d operation.Method resolvedArgs = Except.error e) :
    handlePull d fuel sd exportID =
      some ({ st'.sd with
          PendingOperations := Table.del st'.sd.PendingOperations exportID },
        st'.log, createErrorResponse exportID "MethodError" e) := by
  simp only [handlePull, hres, hop, hargs, hdisp]

/-- The argument-resolution-error branch of `handlePull`, characterized: note
that no table entry for the pulled id is removed by this branch. -/
theorem handlePull_pipeline_err {d : Dispatcher} {fuel : Nat} {sd : SessionData}
    {exportID : Int} {operation : Operation} {st' : RState} {e : String}
    (hres : sd.PendingResults exportID = none)
    (hop : sd.PendingOperations exportID = some operation)
    (hargs : resolvePipelineReferences d fuel { sd := sd, log := [] }
      operation.Args = some (st', Except.error e)) :
    handlePull d fuel sd exportID =
      some (st'.sd, st'.log, createErrorResponse exportID "PipelineError" e) := by
  simp only [handlePull, hres, hop, hargs]

/-- C2 counterexample: a pull that rejects with PipelineError leaves the
pulled id in the pending table, and a second pull of the same id repeats the
same PipelineError reject instead of returning the ExportNotFound reject. -/
theorem claim_C2_counterexample :
    (pullB1.map fun t => t.2.2) =
      some (createErrorResponse 1 "PipelineError"
        "pipeline reference to non-existent export: 99") ∧
    (pullB1.map fun t => t.1.PendingOperations 1) = some (some opB) ∧
    (pullB2.map fun t => t.2.2) =
      some (createErrorResponse 1 "PipelineError"
        "pipeline reference to non-existent export: 99") ∧
    (pullB2.map fun t => t.2.2) ≠
      some (createErrorResponse 1 "ExportNotFound" "Export ID not found") := by
  refine ⟨rfl, rfl, rfl, ?_⟩
  intro h
  rw [show (pullB2.map fun t => t.2.2) =
      some (createErrorResponse 1 "PipelineError"
        "pipeline reference to non-existent export: 99") from rfl] at h
  simp [createErrorResponse] at h

/-- C2 amended: each failed pull emits exactly one reject message.  After a
cached-error, MethodError, or ExportNotFound reject the pulled id is unknown
and a subsequent pull yields the ExportNotFound reject; but after a
PipelineError reject (argument resolution failed) the pending operation is not
removed, so the id stays known and a subsequent pull retries the operation
instead of returning ExportNotFound. -/
theorem claim_C2_amended (d : Dispatcher) (fuel fuel₂ : Nat) (sd : SessionData)
    (exportID : Int) :
    (∀ r, sd.PendingResults exportID = some r → isErrorShaped r = true →
      sd.PendingOperations exportID = none →
      ∃ sd₁, handlePull d fuel sd exportID =
          some (sd₁, [], rejectRaw exportID r) ∧
        sd₁.PendingOperations exportID = none ∧
        sd₁.PendingResults exportID = none ∧
        handlePull d fuel₂ sd₁ exportID =
          some (sd₁, [],
            createErrorResponse exportID "ExportNotFound" "Export ID not found")) ∧
    (∀ operation st' resolvedArgs e,
      sd.PendingResults exportID = none →
      sd.PendingOperations exportID = some operation →
      resolvePipelineReferences d fuel { sd := sd, log := [] } operation.Args =
        some (st', Except.ok resolvedArgs) →
      d operation.Method resolvedArgs = Except.error e →
      st'.sd.PendingResults exportID = none →
      ∃ sd₁, handlePull d fuel sd exportID =
          some (sd₁, st'.log, createErrorResponse exportID "MethodError" e) ∧
        sd₁.PendingOperations exportID = none ∧
        sd₁.PendingResults exportID = none ∧
        handlePull d fuel₂ sd₁ exportID =
          some (sd₁, [],
            createErrorResponse exportID "ExportNotFound" "Export ID not found")) ∧
    (∀ operation st' e,
      sd.PendingResults exportID = none →
      sd.PendingOperations exportID = some operation →
      resolvePipelineReferences d fuel { sd := sd, log := [] } operation.Args =
        some (st', Except.error e) →
      handlePull d fuel sd exportID =
        some (st'.sd, st'.log, createErrorResponse exportID "PipelineError" e)) ∧
    (sd.PendingResults exportID = none → sd.PendingOperations exportID = none →
      handlePull d fuel sd exportID =
        some (sd, [],
          createErrorResponse exportID "ExportNotFound" "Export ID not found") ∧
      handlePull d fuel₂ sd exportID =
        some (sd, [],
          createErrorResponse exportID "ExportNotFound" "Export ID not found")) := by
  refine ⟨?_, ?_, ?_, ?_⟩
  · intro r hres herr hop
    refine ⟨_, handlePull_cached_err hres herr, hop, by simp [Table.del], ?_⟩
    exact handlePull_notfound (by simp [Table.del]) hop
  · intro operation st' resolvedArgs e hres hop hargs hdisp hres'
    refine ⟨_, handlePull_dispatch_err hres hop hargs hdisp,
      by simp [Table.del], hres', ?_⟩
    exact handlePull_notfound hres' (by simp [Table.del])
  · intro operation st' e hres hop hargs
    exact handlePull_pipeline_err hres hop hargs
  · intro hres hop
    exact ⟨handlePull_notfound hres hop, handlePull_notfound hres hop⟩

theorem claim_C2_amended_witness :
    (handlePull dNull 5 sdB 1 =
      some (sdB, [], createErrorResponse 1 "PipelineError"
        "pipeline reference to non-existent export: 99")) ∧
    (handlePull dNull 5 NewSessionData 1 =
      some (NewSessionData, [],
        createErrorResponse 1 "ExportNotFound" "Export ID not found")) :=
  ⟨(claim_C2_amended dNull 5 5 sdB 1).2.2.1 opB { sd := sdB, log := [] }
      "pipeline reference to non-existent export: 99" rfl rfl rfl,
   ((claim_C2_amended dNull 5 5 NewSessionData 1).2.2.2 rfl rfl).1⟩

/-- Resolving the self-referential args never completes, at any fuel: the
recursion re-enters the same pending operation with unchanged state. -/
theorem selfref_resolve_none (d : Dispatcher) :
    ∀ (fuel : Nat) (st : RState),
      st.sd.PendingResults 1 = none →
      st.sd.PendingOperations 1 = some { Method := "m", Args := selfRefArgs } →
      resolvePipelineReferences d fuel st selfRefArgs = none := by
  intro fuel
  induction fuel with
  | zero => intro st h1 h2; rfl
  | succ n ih =>
    intro st h1 h2
    simp only [selfRefArgs, resolvePipelineReferences, asPipelineRef,
      reduceIte, h1, h2]
    rw [show resolvePipelineReferences d n st
      (Value.arr [Value.str "pipeline", Value.num 1]) = none from ih st h1 h2]

/-- C3: the code has no cycle detection.  Pulling export id 1 of `sdSelfRef`
— whose pending args are a pipeline reference to id 1 itself — never
completes, at any fuel: the Go source recurses without bound on this input
instead of failing with a CycleDetected error. -/
theorem claim_C3_bug :
    ∀ fuel : Nat,
      handlePull dNull fuel sdSelfRef 1 = none ∧
      HandleMessage dNull fuel sdSelfRef
        (Value.arr [Value.str "pull", Value.num 1]) = none := by
  intro fuel
  have hr : sdSelfRef.PendingResults 1 = none := rfl
  have hp : sdSelfRef.PendingOperations 1 =
      some { Method := "m", Args := selfRefArgs } := rfl
  have hnone : resolvePipelineReferences dNull fuel
      { sd := sdSelfRef, log := [] } selfRefArgs = none :=
    selfref_resolve_none dNull fuel _ hr hp
  constructor
  · simp only [handlePull, hr, hp]
    rw [hnone]
  · simp only [HandleMessage, reduceIte]
    simp only [handlePull, hr, hp]
    rw [hnone]
    rfl

theorem ExtFromB.btrans {d : Dispatcher} {B : Nat} {a b c : RState}
    (h₁ : ExtFromB d B a b) (h₂ : ExtFromB d B b c) : ExtFromB d B a c := by
  induction h₂ with
  | refl => exact h₁
  | stepV hab hm hrun ih => exact ExtFromB.stepV ih hm hrun
  | stepL hab hm hrun ih => exact ExtFromB.stepL ih hm hrun
  | stepF hab hm hrun ih => exact ExtFromB.stepF ih hm hrun
  | cache κ w hab ih => exact ExtFromB.cache κ w ih

theorem ExtFromB.bmono {d : Dispatcher} {B B' : Nat} {a b : RState}
    (hB : B ≤ B') (h : ExtFromB d B a b) : ExtFromB d B' a b := by
  induction h with
  | refl => exact ExtFromB.refl _
  | stepV hab hm hrun ih => exact ExtFromB.stepV ih (lt_of_lt_of_le hm hB) hrun
  | stepL hab hm hrun ih => exact ExtFromB.stepL ih (lt_of_lt_of_le hm hB) hrun
  | stepF hab hm hrun ih => exact ExtFromB.stepF ih (lt_of_lt_of_le hm hB) hrun
  | cache κ w hab ih => exact ExtFromB.cache κ w ih

theorem RF.self (st : RState) : RF st st :=
  ⟨fun _ => le_refl _, fun _ _ h => h, fun _ h => h, fun _ h => Or.inl h,
    fun _ _ h => absurd h (by simp_all), ⟨[], by simp⟩⟩

theorem RF.rtrans {a b c : RState} (h₁ : RF a b) (h₂ : RF b c) : RF a c := by
  obtain ⟨c₁, p₁, r₁, k₁, n₁, l₁, hl₁⟩ := h₁
  obtain ⟨c₂, p₂, r₂, k₂, n₂, l₂, hl₂⟩ := h₂
  refine ⟨fun i => le_trans (c₁ i) (c₂ i), fun i op' h => p₁ i op' (p₂ i op' h),
    fun i h => r₂ i (r₁ i h), ?_, ?_, ⟨l₁ ++ l₂, by rw [hl₂, hl₁, List.append_assoc]⟩⟩
  · intro i h
    rcases k₁ i h with h' | h'
    · exact k₂ i h'
    · exact Or.inr (r₂ i h')
  · intro i h h'
    by_cases hb : b.sd.PendingResults i = none
    · exact lt_of_le_of_lt (c₁ i) (n₂ i hb h')
    · exact lt_of_lt_of_le (n₁ i h hb) (c₂ i)

theorem RF.rcache (st₁ : RState) (k : Int) (w : Value) :
    RF st₁ (cachePost st₁ k w) := by
  refine ⟨?_, ?_, ?_, ?_, ?_, ⟨[k], rfl⟩⟩
  · intro i
    simp only [cachePost, List.count_append]
    exact Nat.le_add_right _ _
  · intro i op' h
    simp only [cachePost, Table.del] at h
    split at h
    · exact absurd h (by simp)
    · exact h
  · intro i h
    simp only [cachePost, Table.set]
    split <;> simp [h]
  · intro i h
    by_cases hi : i = k
    · subst hi
      right
      simp [cachePost, Table.set]
    · left
      simpa only [cachePost, Table.del, if_neg hi] using h
  · intro i h h'
    simp only [cachePost, Table.set] at h'
    split at h'
    · next heq =>
      subst heq
      simp only [cachePost, List.count_append, List.count_cons_self,
        List.count_nil]
      omega
    · exact absurd h' (by simp [h])

/-- Every completed resolver run (on a value, list, or field list) satisfies
the accounting facts `RF`. -/
theorem runFacts (d : Dispatcher) :
    ∀ n : Nat,
      (∀ st v out, resolvePipelineReferences d n st v = some out → RF st out.1) ∧
      (∀ st vs out, resolveList d n st vs = some out → RF st out.1) ∧
      (∀ st fs out, resolveFields d n st fs = some out → RF st out.1) := by
  intro n
  induction n with
  | zero =>
    refine ⟨?_, ?_, ?_⟩ <;> intro st x out h <;>
      simp [resolvePipelineReferences, resolveList, resolveFields] at h
  | succ n ih =>
    obtain ⟨ih₁, ih₂, ih₃⟩ := ih
    refine ⟨?_, ?_, ?_⟩
    · intro st v out h
      cases v with
      | arr elems =>
        simp only [resolvePipelineReferences] at h
        rcases href : asPipelineRef elems with _ | ⟨refExportID, rest⟩ <;>
          simp only [href] at h
        · rcases hl : resolveList d n st elems with _ | ⟨st₁, res⟩ <;>
            simp only [hl] at h
          · simp at h
          · have hf := ih₂ st elems _ hl
            cases res <;> simp only [Option.some.injEq] at h <;> subst h <;> exact hf
        · rcases hres : st.sd.PendingResults refExportID with _ | result <;>
            simp only [hres] at h
          · rcases hop : st.sd.PendingOperations refExportID with _ | operation <;>
              simp only [hop] at h
            · simp only [Option.some.injEq] at h
              subst h; exact RF.self st
            · rcases hargs : resolvePipelineReferences d n st operation.Args with
                _ | ⟨st₁, argsRes⟩ <;> simp only [hargs] at h
              · simp at h
              · have hf₁ := ih₁ st operation.Args _ hargs
                cases argsRes with
                | error e =>
                  simp only [Option.some.injEq] at h; subst h; exact hf₁
                | ok resolvedArgs =>
                  rcases hdisp : d operation.Method resolvedArgs with e | result <;>
                    simp only [hdisp] at h
                  · simp only [Option.some.injEq] at h; subst h; exact hf₁
                  · have hstep := RF.rcache st₁ refExportID result
                    rcases hpath : refPath rest with _ | pathArray <;>
                      simp only [hpath] at h <;>
                      simp only [Option.some.injEq] at h <;> subst h <;>
                      exact hf₁.rtrans hstep
          · rcases hpath : refPath rest with _ | pathArray <;>
              simp only [hpath] at h <;>
              simp only [Option.some.injEq] at h <;> subst h <;> exact RF.self st
      | obj fields =>
        simp only [resolvePipelineReferences] at h
        rcases hf : resolveFields d n st fields with _ | ⟨st₁, res⟩ <;>
          simp only [hf] at h
        · simp at h
        · have hff := ih₃ st fields _ hf
          cases res <;> simp only [Option.some.injEq] at h <;> subst h <;> exact hff
      | null =>
        simp only [resolvePipelineReferences, Option.some.injEq] at h
        subst h; exact RF.self st
      | bool b =>
        simp only [resolvePipelineReferences, Option.some.injEq] at h
        subst h; exact RF.self st
      | num m =>
        simp only [resolvePipelineReferences, Option.some.injEq] at h
        subst h; exact RF.self st
      | str s =>
        simp only [resolvePipelineReferences, Option.some.injEq] at h
        subst h; exact RF.self st
    · intro st vs out h
      cases vs with
      | nil =>
        simp only [resolveList, Option.some.injEq] at h
        subst h; exact RF.self st
      | cons v rest =>
        simp only [resolveList] at h
        rcases hv : resolvePipelineReferences d n st v with _ | ⟨st₁, rv⟩ <;>
          simp only [hv] at h
        · simp at h
        · have hf₁ := ih₁ st v _ hv
          cases rv with
          | error e => simp only [Option.some.injEq] at h; subst h; exact hf₁
          | ok rv =>
            rcases hrest : resolveList d n st₁ rest with _ | ⟨st₂, rvs⟩ <;>
              simp only [hrest] at h
            · simp at h
            · have hf₂ := ih₂ st₁ rest _ hrest
              cases rvs <;> simp only [Option.some.injEq] at h <;> subst h <;>
                exact hf₁.rtrans hf₂
    · intro st fs out h
      cases fs with
      | nil =>
        simp only [resolveFields, Option.some.injEq] at h
        subst h; exact RF.self st
      | cons kv rest =>
        obtain ⟨k, v⟩ := kv
        simp only [resolveFields] at h
        rcases hv : resolvePipelineReferences d n st v with _ | ⟨st₁, rv⟩ <;>
          simp only [hv] at h
        · simp at h
        · have hf₁ := ih₁ st v _ hv
          cases rv with
          | error e => simp only [Option.some.injEq] at h; subst h; exact hf₁
          | ok rv =>
            rcases hrest : resolveFields d n st₁ rest with _ | ⟨st₂, rvs⟩ <;>
              simp only [hrest] at h
            · simp at h
            · have hf₂ := ih₃ st₁ rest _ hrest
              cases rvs <;> simp only [Option.some.injEq] at h <;> subst h <;>
                exact hf₁.rtrans hf₂

/-- The accounting facts hold along any timeline chain. -/
theorem ExtFromB.brf {d : Dispatcher} {B : Nat} {a b : RState}
    (h : ExtFromB d B a b) : RF a b := by
  induction h with
  | refl => exact RF.self _
  | stepV hab hm hrun ih => exact ih.rtrans ((runFacts d _).1 _ _ _ hrun)
  | stepL hab hm hrun ih => exact ih.rtrans ((runFacts d _).2.1 _ _ _ hrun)
  | stepF hab hm hrun ih => exact ih.rtrans ((runFacts d _).2.2 _ _ _ hrun)
  | cache κ w hab ih => exact ih.rtrans (RF.rcache _ _ _)

theorem ExtR.etrans {d : Dispatcher} {B : Nat} {a b c : RState}
    (h₁ : ExtR d B a b) (h₂ : ExtR d B b c) : ExtR d B a c := by
  induction h₂ with
  | refl => exact h₁
  | stepV hab hm hrun ih => exact ExtR.stepV ih hm hrun
  | stepL hab hm hrun ih => exact ExtR.stepL ih hm hrun
  | stepF hab hm hrun ih => exact ExtR.stepF ih hm hrun

theorem ExtR.emono {d : Dispatcher} {B B' : Nat} {a b : RState}
    (hB : B ≤ B') (h : ExtR d B a b) : ExtR d B' a b := by
  induction h with
  | refl => exact ExtR.refl _
  | stepV hab hm hrun ih => exact ExtR.stepV ih (lt_of_lt_of_le hm hB) hrun
  | stepL hab hm hrun ih => exact ExtR.stepL ih (lt_of_lt_of_le hm hB) hrun
  | stepF hab hm hrun ih => exact ExtR.stepF ih (lt_of_lt_of_le hm hB) hrun

theorem ExtR.toB {d : Dispatcher} {B : Nat} {a b : RState}
    (h : ExtR d B a b) : ExtFromB d B a b := by
  induction h with
  | refl => exact ExtFromB.refl _
  | stepV hab hm hrun ih => exact ExtFromB.stepV ih hm hrun
  | stepL hab hm hrun ih => exact ExtFromB.stepL ih hm hrun
  | stepF hab hm hrun ih => exact ExtFromB.stepF ih hm hrun

theorem ExtR.erf {d : Dispatcher} {B : Nat} {a b : RState}
    (h : ExtR d B a b) : RF a b := h.toB.brf

theorem Cert.cmono {d : Dispatcher} {B B' : Nat} {k : Int} {lo hi : RState}
    (hB : B ≤ B') (h : Cert d B k lo hi) : Cert d B' k lo hi := by
  obtain ⟨stₓ, certEnd, rₐ, m, opk, hch, h1, h2, hm, hrun, w, hsand⟩ := h
  exact ⟨stₓ, certEnd, rₐ, m, opk, hch.emono hB, h1, h2, lt_of_lt_of_le hm hB,
    hrun, w, hsand.bmono hB⟩

theorem Cert.prepend {d : Dispatcher} {B : Nat} {k : Int} {a lo hi : RState}
    (hpre : ExtR d B a lo) (h : Cert d B k lo hi) : Cert d B k a hi := by
  obtain ⟨stₓ, certEnd, rₐ, m, opk, hch, h1, h2, hm, hrun, w, hsand⟩ := h
  exact ⟨stₓ, certEnd, rₐ, m, opk, hpre.etrans hch, h1, h2, hm, hrun, w, hsand⟩

theorem Cert.append {d : Dispatcher} {B : Nat} {k : Int} {lo hi c : RState}
    (h : Cert d B k lo hi) (hpost : ExtFromB d B hi c) : Cert d B k lo c := by
  obtain ⟨stₓ, certEnd, rₐ, m, opk, hch, h1, h2, hm, hrun, w, hsand⟩ := h
  exact ⟨stₓ, certEnd, rₐ, m, opk, hch, h1, h2, hm, hrun, w, hsand.btrans hpost⟩

set_option maxHeartbeats 1000000 in
/-- Provenance: within one completed resolver run, any id whose result
appears carries a certificate. -/
theorem runCert (d : Dispatcher) :
    ∀ n : Nat,
      (∀ st v out, resolvePipelineReferences d n st v = some out →
        ∀ k, st.sd.PendingResults k = none → out.1.sd.PendingResults k ≠ none →
        Cert d n k st out.1) ∧
      (∀ st vs out, resolveList d n st vs = some out →
        ∀ k, st.sd.PendingResults k = none → out.1.sd.PendingResults k ≠ none →
        Cert d n k st out.1) ∧
      (∀ st fs out, resolveFields d n st fs = some out →
        ∀ k, st.sd.PendingResults k = none → out.1.sd.PendingResults k ≠ none →
        Cert d n k st out.1) := by
  intro n
  induction n with
  | zero =>
    refine ⟨?_, ?_, ?_⟩ <;> intro st x out h <;>
      simp [resolvePipelineReferences, resolveList, resolveFields] at h
  | succ n ih =>
    obtain ⟨ih₁, ih₂, ih₃⟩ := ih
    have hstepmono : n ≤ n + 1 := Nat.le_succ n
    refine ⟨?_, ?_, ?_⟩
    · intro st v out h k hk0 hk1
      cases v with
      | arr elems =>
        simp only [resolvePipelineReferences] at h
        rcases href : asPipelineRef elems with _ | ⟨refExportID, rest⟩ <;>
          simp only [href] at h
        · rcases hl : resolveList d n st elems with _ | ⟨st₁, res⟩ <;>
            simp only [hl] at h
          · simp at h
          · have hcert : Cert d n k st st₁ := by
              refine ih₂ st elems (st₁, res) hl k hk0 ?_
              cases res <;> simp only [Option.some.injEq] at h <;> subst h <;>
                exact hk1
            have : out.1 = st₁ := by
              cases res <;> simp only [Option.some.injEq] at h <;> subst h <;> rfl
            rw [this]
            exact hcert.cmono hstepmono
        · rcases hres : st.sd.PendingResults refExportID with _ | result <;>
            simp only [hres] at h
          · rcases hop : st.sd.PendingOperations refExportID with _ | operation <;>
              simp only [hop] at h
            · simp only [Option.some.injEq] at h
              subst h; exact absurd hk0 hk1
            · rcases hargs : resolvePipelineReferences d n st operation.Args with
                _ | ⟨st₁, argsRes⟩ <;> simp only [hargs] at h
              · simp at h
              · cases argsRes with
                | error e =>
                  simp only [Option.some.injEq] at h; subst h
                  exact (ih₁ st operation.Args _ hargs k hk0 hk1).cmono hstepmono
                | ok resolvedArgs =>
                  rcases hdisp : d operation.Method resolvedArgs with e | result <;>
                    simp only [hdisp] at h
                  · simp only [Option.some.injEq] at h; subst h
                    exact (ih₁ st operation.Args _ hargs k hk0 hk1).cmono hstepmono
                  · have hout : out.1 = cachePost st₁ refExportID result := by
                      rcases hpath : refPath rest with _ | pathArray <;>
                        simp only [hpath] at h <;>
                        simp only [Option.some.injEq] at h <;> subst h <;> rfl
                    rw [hout] at hk1 ⊢
                    by_cases hkr : k = refExportID
                    · subst hkr
                      exact ⟨st, st₁, resolvedArgs, n, operation, ExtR.refl st,
                        hres, hop, Nat.lt_succ_self n, hargs, result,
                        ExtFromB.refl _⟩
                    · have hk1' : st₁.sd.PendingResults k ≠ none := by
                        simpa only [cachePost, Table.set, Table.del,
                          if_neg hkr] using hk1
                      by_cases hmid : st₁.sd.PendingResults k = none
                      · exact absurd hmid hk1'
                      · have hcert := (ih₁ st operation.Args _ hargs k hk0
                          (by simpa using hmid)).cmono hstepmono
                        exact hcert.append (ExtFromB.cache refExportID result
                          (ExtFromB.refl st₁))
          · rcases hpath : refPath rest with _ | pathArray <;>
              simp only [hpath] at h <;> simp only [Option.some.injEq] at h <;>
              subst h <;> exact absurd hk0 hk1
      | obj fields =>
        simp only [resolvePipelineReferences] at h
        rcases hf : resolveFields d n st fields with _ | ⟨st₁, res⟩ <;>
          simp only [hf] at h
        · simp at h
        · have hout : out.1 = st₁ := by
            cases res <;> simp only [Option.some.injEq] at h <;> subst h <;> rfl
          rw [hout] at hk1 ⊢
          exact (ih₃ st fields (st₁, res) hf k hk0 hk1).cmono hstepmono
      | null =>
        simp only [resolvePipelineReferences, Option.some.injEq] at h
        subst h; exact absurd hk0 hk1
      | bool b =>
        simp only [resolvePipelineReferences, Option.some.injEq] at h
        subst h; exact absurd hk0 hk1
      | num m =>
        simp only [resolvePipelineReferences, Option.some.injEq] at h
        subst h; exact absurd hk0 hk1
      | str s =>
        simp only [resolvePipelineReferences, Option.some.injEq] at h
        subst h; exact absurd hk0 hk1
    · intro st vs out h k hk0 hk1
      cases vs with
      | nil =>
        simp only [resolveList, Option.some.injEq] at h
        subst h; exact absurd hk0 hk1
      | cons v rest =>
        simp only [resolveList] at h
        rcases hv : resolvePipelineReferences d n st v with _ | ⟨st₁, rv⟩ <;>
          simp only [hv] at h
        · simp at h
        · cases rv with
          | error e =>
            simp only [Option.some.injEq] at h; subst h
            exact (ih₁ st v _ hv k hk0 hk1).cmono hstepmono
          | ok rv =>
            rcases hrest : resolveList d n st₁ rest with _ | ⟨st₂, rvs⟩ <;>
              simp only [hrest] at h
            · simp at h
            · have hout : out.1 = st₂ := by
                cases rvs <;> simp only [Option.some.injEq] at h <;> subst h <;> rfl
              rw [hout] at hk1 ⊢
              by_cases hmid : st₁.sd.PendingResults k = none
              · have hcert := (ih₂ st₁ rest (st₂, rvs) hrest k hmid hk1).cmono
                  hstepmono
                exact hcert.prepend (ExtR.stepV (ExtR.refl st)
                  (Nat.lt_succ_self n) hv)
              · have hcert := (ih₁ st v (st₁, Except.ok rv) hv k hk0
                  (by simpa using hmid)).cmono hstepmono
                exact hcert.append (ExtFromB.stepL (ExtFromB.refl st₁)
                  (Nat.lt_succ_self n) hrest)
    · intro st fs out h k hk0 hk1
      cases fs with
      | nil =>
        simp only [resolveFields, Option.some.injEq] at h
        subst h; exact absurd hk0 hk1
      | cons kv rest =>
        obtain ⟨ky, v⟩ := kv
        simp only [resolveFields] at h
        rcases hv : resolvePipelineReferences d n st v with _ | ⟨st₁, rv⟩ <;>
          simp only [hv] at h
        · simp at h
        · cases rv with
          | error e =>
            simp only [Option.some.injEq] at h; subst h
            exact (ih₁ st v _ hv k hk0 hk1).cmono hstepmono
          | ok rv =>
            rcases hrest : resolveFields d n st₁ rest with _ | ⟨st₂, rvs⟩ <;>
              simp only [hrest] at h
            · simp at h
            · have hout : out.1 = st₂ := by
                cases rvs <;> simp only [Option.some.injEq] at h <;> subst h <;> rfl
              rw [hout] at hk1 ⊢
              by_cases hmid : st₁.sd.PendingResults k = none
              · have hcert := (ih₃ st₁ rest (st₂, rvs) hrest k hmid hk1).cmono
                  hstepmono
                exact hcert.prepend (ExtR.stepV (ExtR.refl st)
                  (Nat.lt_succ_self n) hv)
              · have hcert := (ih₁ st v (st₁, Except.ok rv) hv k hk0
                  (by simpa using hmid)).cmono hstepmono
                exact hcert.append (ExtFromB.stepF (ExtFromB.refl st₁)
                  (Nat.lt_succ_self n) hrest)

/-- Provenance along a replay-side chain. -/
theorem chainCert {d : Dispatcher} {B : Nat} {a b : RState} {k : Int}
    (h : ExtR d B a b) (hk0 : a.sd.PendingResults k = none)
    (hk1 : b.sd.PendingResults k ≠ none) : Cert d B k a b := by
  induction h with
  | refl => exact absurd hk0 (by simp_all)
  | stepV hab hm hrun ih =>
    next st₂ st₃ m v res =>
    by_cases hmid : st₂.sd.PendingResults k = none
    · exact (((runCert d m).1 _ _ _ hrun k hmid hk1).cmono (le_of_lt hm)).prepend
        hab
    · exact (ih (by simpa using hmid)).append (ExtFromB.stepV (ExtFromB.refl _)
        hm hrun)
  | stepL hab hm hrun ih =>
    next st₂ st₃ m vs res =>
    by_cases hmid : st₂.sd.PendingResults k = none
    · exact (((runCert d m).2.1 _ _ _ hrun k hmid hk1).cmono
        (le_of_lt hm)).prepend hab
    · exact (ih (by simpa using hmid)).append (ExtFromB.stepL (ExtFromB.refl _)
        hm hrun)
  | stepF hab hm hrun ih =>
    next st₂ st₃ m fs res =>
    by_cases hmid : st₂.sd.PendingResults k = none
    · exact (((runCert d m).2.2 _ _ _ hrun k hmid hk1).cmono
        (le_of_lt hm)).prepend hab
    · exact (ih (by simpa using hmid)).append (ExtFromB.stepF (ExtFromB.refl _)
        hm hrun)

theorem ReachSite.smono {d : Dispatcher} {B B' : Nat} {j : Int} {st : RState}
    {t : RTarget} {stᵦ : RState} (hB : B ≤ B')
    (h : ReachSite d B j st t stᵦ) : ReachSite d B' j st t stᵦ := by
  induction h with
  | here h1 h2 h3 => exact ReachSite.here h1 h2 h3
  | viaRef h1 h2 h3 hf hg hbg hsub ih =>
    exact ReachSite.viaRef h1 h2 h3 (lt_of_lt_of_le hf hB) hg (hbg.bmono hB) ih
  | viaList h1 hsub ih => exact ReachSite.viaList h1 ih
  | viaObj hsub ih => exact ReachSite.viaObj ih
  | lhead hsub ih => exact ReachSite.lhead ih
  | ltail hf hrun hsub ih =>
    exact ReachSite.ltail (lt_of_lt_of_le hf hB) hrun ih
  | fhead hsub ih => exact ReachSite.fhead ih
  | ftail hf hrun hsub ih =>
    exact ReachSite.ftail (lt_of_lt_of_le hf hB) hrun ih

/-- The derivation start reaches the site through completed runs. -/
theorem ReachSite.chain {d : Dispatcher} {B : Nat} {j : Int} {st : RState}
    {t : RTarget} {stᵦ : RState} (h : ReachSite d B j st t stᵦ) :
    ExtR d B st stᵦ := by
  induction h with
  | here h1 h2 h3 => exact ExtR.refl _
  | viaRef h1 h2 h3 hf hg hbg hsub ih => exact ih
  | viaList h1 hsub ih => exact ih
  | viaObj hsub ih => exact ih
  | lhead hsub ih => exact ih
  | ltail hf hrun hsub ih => exact (ExtR.stepV (ExtR.refl _) hf hrun).etrans ih
  | fhead hsub ih => exact ih
  | ftail hf hrun hsub ih => exact (ExtR.stepV (ExtR.refl _) hf hrun).etrans ih

/-- The site's entry conditions: the target id is uncomputed and pending
there. -/
theorem ReachSite.siteFacts {d : Dispatcher} {B : Nat} {j : Int} {st : RState}
    {t : RTarget} {stᵦ : RState} (h : ReachSite d B j st t stᵦ) :
    stᵦ.sd.PendingResults j = none ∧
    ∃ opj, stᵦ.sd.PendingOperations j = some opj := by
  induction h with
  | here h1 h2 h3 => exact ⟨h2, _, h3⟩
  | viaRef h1 h2 h3 hf hg hbg hsub ih => exact ih
  | viaList h1 hsub ih => exact ih
  | viaObj hsub ih => exact ih
  | lhead hsub ih => exact ih
  | ltail hf hrun hsub ih => exact ih
  | fhead hsub ih => exact ih
  | ftail hf hrun hsub ih => exact ih

theorem count_cachePost (j k : Int) (st : RState) (w : Value) :
    List.count j (cachePost st k w).log =
      List.count j st.log + (if j = k then 1 else 0) := by
  by_cases h : j = k
  · subst h
    simp [cachePost, List.count_append]
  · simp [cachePost, List.count_append, List.count_cons, h]

theorem SiteBundle.sbmono {d : Dispatcher} {B B' : Nat} {j : Int} {st : RState}
    {t : RTarget} {st' : RState} (hB : B ≤ B') (h : SiteBundle d B j st t st') :
    SiteBundle d B' j st t st' := by
  obtain ⟨stᵦ, opj, m₂, st₃, rₐ, hs, h1, h2, h3, hm, hg, h4, hc⟩ := h
  exact ⟨stᵦ, opj, m₂, st₃, rₐ, hs.smono hB, h1, h2, h3,
    lt_of_lt_of_le hm hB, hg, h4, hc.bmono hB⟩

set_option maxHeartbeats 1000000 in
/-- Site extraction: if a run increases the dispatch count of `j`, it passed
a site for `j` before the first `j`-dispatch, and the site's guard completed
successfully without dispatching `j`. -/
theorem extractSite (d : Dispatcher) (j : Int) :
    ∀ n : Nat,
      (∀ st v out, resolvePipelineReferences d n st v = some out →
        List.count j st.log < List.count j out.1.log →
        SiteBundle d n j st (RTarget.V v) out.1) ∧
      (∀ st vs out, resolveList d n st vs = some out →
        List.count j st.log < List.count j out.1.log →
        SiteBundle d n j st (RTarget.L vs) out.1) ∧
      (∀ st fs out, resolveFields d n st fs = some out →
        List.count j st.log < List.count j out.1.log →
        SiteBundle d n j st (RTarget.F fs) out.1) := by
  intro n
  induction n with
  | zero =>
    refine ⟨?_, ?_, ?_⟩ <;> intro st x out h <;>
      simp [resolvePipelineReferences, resolveList, resolveFields] at h
  | succ n ih =>
    obtain ⟨ih₁, ih₂, ih₃⟩ := ih
    have hstepmono : n ≤ n + 1 := Nat.le_succ n
    refine ⟨?_, ?_, ?_⟩
    · intro st v out h hcount
      cases v with
      | arr elems =>
        simp only [resolvePipelineReferences] at h
        rcases href : asPipelineRef elems with _ | ⟨refExportID, rest⟩ <;>
          simp only [href] at h
        · rcases hl : resolveList d n st elems with _ | ⟨st₁, res⟩ <;>
            simp only [hl] at h
          · simp at h
          · have hout : out.1 = st₁ := by
              cases res <;> simp only [Option.some.injEq] at h <;> subst h <;> rfl
            rw [hout] at hcount ⊢
            obtain ⟨stᵦ, opj, m₂, st₃, rₐ, hsite, hcnt, hbr, hbo, hm₂, hguard,
              hcnt₃, hchain⟩ := ih₂ st elems (st₁, res) hl hcount
            exact ⟨stᵦ, opj, m₂, st₃, rₐ,
              ReachSite.viaList href (hsite.smono hstepmono), hcnt, hbr, hbo,
              lt_of_lt_of_le hm₂ hstepmono, hguard, hcnt₃,
              hchain.bmono hstepmono⟩
        · rcases hres : st.sd.PendingResults refExportID with _ | result <;>
            simp only [hres] at h
          · rcases hop : st.sd.PendingOperations refExportID with _ | operation <;>
              simp only [hop] at h
            · simp only [Option.some.injEq] at h
              subst h; exact absurd hcount (lt_irrefl _)
            · rcases hargs : resolvePipelineReferences d n st operation.Args with
                _ | ⟨st₁, argsRes⟩ <;> simp only [hargs] at h
              · simp at h
              · cases argsRes with
                | error e =>
                  simp only [Option.some.injEq] at h; subst h
                  obtain ⟨stᵦ, opj, m₂, st₃, rₐ, hsite, hcnt, hbr, hbo, hm₂,
                    hguard, hcnt₃, hchain⟩ :=
                    ih₁ st operation.Args (st₁, Except.error e) hargs hcount
                  exact ⟨stᵦ, opj, m₂, st₃, rₐ,
                    ReachSite.viaRef href hres hop (Nat.lt_succ_self n) hargs
                      (hchain.bmono hstepmono) (hsite.smono hstepmono),
                    hcnt, hbr, hbo, lt_of_lt_of_le hm₂ hstepmono, hguard,
                    hcnt₃, hchain.bmono hstepmono⟩
                | ok resolvedArgs =>
                  rcases hdisp : d operation.Method resolvedArgs with e | result <;>
                    simp only [hdisp] at h
                  · simp only [Option.some.injEq] at h; subst h
                    obtain ⟨stᵦ, opj, m₂, st₃, rₐ, hsite, hcnt, hbr, hbo, hm₂,
                      hguard, hcnt₃, hchain⟩ :=
                      ih₁ st operation.Args (st₁, Except.ok resolvedArgs)
                        hargs hcount
                    exact ⟨stᵦ, opj, m₂, st₃, rₐ,
                      ReachSite.viaRef href hres hop (Nat.lt_succ_self n) hargs
                        (hchain.bmono hstepmono) (hsite.smono hstepmono),
                      hcnt, hbr, hbo, lt_of_lt_of_le hm₂ hstepmono, hguard,
                      hcnt₃, hchain.bmono hstepmono⟩
                  · have hout : out.1 = cachePost st₁ refExportID result := by
                      rcases hpath : refPath rest with _ | pathArray <;>
                        simp only [hpath] at h <;>
                        simp only [Option.some.injEq] at h <;> subst h <;> rfl
                    rw [hout] at hcount ⊢
                    rw [count_cachePost] at hcount
                    have hmono₁ :=
                      ((runFacts d n).1 st operation.Args
                        (st₁, Except.ok resolvedArgs) hargs).1 j
                    by_cases hkr : j = refExportID
                    · subst hkr
                      rcases lt_or_eq_of_le hmono₁ with hlt | heq
                      · obtain ⟨stᵦ, opj, m₂, st₃, rₐ, hsite, hcnt, hbr, hbo,
                          hm₂, hguard, hcnt₃, hchain⟩ :=
                          ih₁ st operation.Args (st₁, Except.ok resolvedArgs)
                            hargs hlt
                        exact ⟨stᵦ, opj, m₂, st₃, rₐ,
                          ReachSite.viaRef href hres hop (Nat.lt_succ_self n)
                            hargs (hchain.bmono hstepmono)
                            (hsite.smono hstepmono),
                          hcnt, hbr, hbo, lt_of_lt_of_le hm₂ hstepmono, hguard,
                          hcnt₃,
                          ExtFromB.cache j result (hchain.bmono hstepmono)⟩
                      · exact ⟨st, operation, n, st₁, resolvedArgs,
                          ReachSite.here href hres hop, rfl, hres, hop,
                          Nat.lt_succ_self n, hargs, heq.symm,
                          ExtFromB.cache j result
                            (ExtFromB.stepV (ExtFromB.refl st)
                              (Nat.lt_succ_self n) hargs)⟩
                    · rw [if_neg hkr, Nat.add_zero] at hcount
                      obtain ⟨stᵦ, opj, m₂, st₃, rₐ, hsite, hcnt, hbr, hbo,
                        hm₂, hguard, hcnt₃, hchain⟩ :=
                        ih₁ st operation.Args (st₁, Except.ok resolvedArgs)
                          hargs hcount
                      exact ⟨stᵦ, opj, m₂, st₃, rₐ,
                        ReachSite.viaRef href hres hop (Nat.lt_succ_self n)
                          hargs (hchain.bmono hstepmono) (hsite.smono hstepmono),
                        hcnt, hbr, hbo, lt_of_lt_of_le hm₂ hstepmono, hguard,
                        hcnt₃,
                        ExtFromB.cache refExportID result
                          (hchain.bmono hstepmono)⟩
          · rcases hpath : refPath rest with _ | pathArray <;>
              simp only [hpath] at h <;> simp only [Option.some.injEq] at h <;>
              subst h <;> exact absurd hcount (lt_irrefl _)
      | obj fields =>
        simp only [resolvePipelineReferences] at h
        rcases hf : resolveFields d n st fields with _ | ⟨st₁, res⟩ <;>
          simp only [hf] at h
        · simp at h
        · have hout : out.1 = st₁ := by
            cases res <;> simp only [Option.some.injEq] at h <;> subst h <;> rfl
          rw [hout] at hcount ⊢
          obtain ⟨stᵦ, opj, m₂, st₃, rₐ, hsite, hcnt, hbr, hbo, hm₂, hguard,
            hcnt₃, hchain⟩ := ih₃ st fields (st₁, res) hf hcount
          exact ⟨stᵦ, opj, m₂, st₃, rₐ, ReachSite.viaObj (hsite.smono hstepmono),
            hcnt, hbr, hbo, lt_of_lt_of_le hm₂ hstepmono, hguard, hcnt₃,
            hchain.bmono hstepmono⟩
      | null =>
        simp only [resolvePipelineReferences, Option.some.injEq] at h
        subst h; exact absurd hcount (lt_irrefl _)
      | bool b =>
        simp only [resolvePipelineReferences, Option.some.injEq] at h
        subst h; exact absurd hcount (lt_irrefl _)
      | num m =>
        simp only [resolvePipelineReferences, Option.some.injEq] at h
        subst h; exact absurd hcount (lt_irrefl _)
      | str s =>
        simp only [resolvePipelineReferences, Option.some.injEq] at h
        subst h; exact absurd hcount (lt_irrefl _)
    · intro st vs out h hcount
      cases vs with
      | nil =>
        simp only [resolveList, Option.some.injEq] at h
        subst h; exact absurd hcount (lt_irrefl _)
      | cons v rest =>
        simp only [resolveList] at h
        rcases hv : resolvePipelineReferences d n st v with _ | ⟨st₁, rv⟩ <;>
          simp only [hv] at h
        · simp at h
        · cases rv with
          | error e =>
            simp only [Option.some.injEq] at h; subst h
            obtain ⟨stᵦ, opj, m₂, st₃, rₐ, hsite, hcnt, hbr, hbo, hm₂, hguard,
              hcnt₃, hchain⟩ := ih₁ st v (st₁, Except.error e) hv hcount
            exact ⟨stᵦ, opj, m₂, st₃, rₐ, ReachSite.lhead (hsite.smono hstepmono),
              hcnt, hbr, hbo, lt_of_lt_of_le hm₂ hstepmono, hguard, hcnt₃,
              hchain.bmono hstepmono⟩
          | ok rv =>
            rcases hrest : resolveList d n st₁ rest with _ | ⟨st₂, rvs⟩ <;>
              simp only [hrest] at h
            · simp at h
            · have hout : out.1 = st₂ := by
                cases rvs <;> simp only [Option.some.injEq] at h <;> subst h <;> rfl
              rw [hout] at hcount ⊢
              have hmono₁ := ((runFacts d n).1 st v (st₁, Except.ok rv) hv).1 j
              rcases lt_or_eq_of_le hmono₁ with hlt | heq
              · obtain ⟨stᵦ, opj, m₂, st₃, rₐ, hsite, hcnt, hbr, hbo, hm₂,
                  hguard, hcnt₃, hchain⟩ := ih₁ st v (st₁, Except.ok rv) hv hlt
                exact ⟨stᵦ, opj, m₂, st₃, rₐ,
                  ReachSite.lhead (hsite.smono hstepmono), hcnt, hbr, hbo,
                  lt_of_lt_of_le hm₂ hstepmono, hguard, hcnt₃,
                  ExtFromB.stepL (hchain.bmono hstepmono) (Nat.lt_succ_self n)
                    hrest⟩
              · have hcount₂ : List.count j st₁.log < List.count j st₂.log := by
                  rw [← heq]; exact hcount
                obtain ⟨stᵦ, opj, m₂, st₃, rₐ, hsite, hcnt, hbr, hbo, hm₂,
                  hguard, hcnt₃, hchain⟩ := ih₂ st₁ rest (st₂, rvs) hrest hcount₂
                exact ⟨stᵦ, opj, m₂, st₃, rₐ,
                  ReachSite.ltail (Nat.lt_succ_self n) hv
                    (hsite.smono hstepmono),
                  hcnt.trans heq.symm, hbr, hbo, lt_of_lt_of_le hm₂ hstepmono,
                  hguard, hcnt₃, hchain.bmono hstepmono⟩
    · intro st fs out h hcount
      cases fs with
      | nil =>
        simp only [resolveFields, Option.some.injEq] at h
        subst h; exact absurd hcount (lt_irrefl _)
      | cons kv rest =>
        obtain ⟨ky, v⟩ := kv
        simp only [resolveFields] at h
        rcases hv : resolvePipelineReferences d n st v with _ | ⟨st₁, rv⟩ <;>
          simp only [hv] at h
        · simp at h
        · cases rv with
          | error e =>
            simp only [Option.some.injEq] at h; subst h
            obtain ⟨stᵦ, opj, m₂, st₃, rₐ, hsite, hcnt, hbr, hbo, hm₂, hguard,
              hcnt₃, hchain⟩ := ih₁ st v (st₁, Except.error e) hv hcount
            exact ⟨stᵦ, opj, m₂, st₃, rₐ, ReachSite.fhead (hsite.smono hstepmono),
              hcnt, hbr, hbo, lt_of_lt_of_le hm₂ hstepmono, hguard, hcnt₃,
              hchain.bmono hstepmono⟩
          | ok rv =>
            rcases hrest : resolveFields d n st₁ rest with _ | ⟨st₂, rvs⟩ <;>
              simp only [hrest] at h
            · simp at h
            · have hout : out.1 = st₂ := by
                cases rvs <;> simp only [Option.some.injEq] at h <;> subst h <;> rfl
              rw [hout] at hcount ⊢
              have hmono₁ := ((runFacts d n).1 st v (st₁, Except.ok rv) hv).1 j
              rcases lt_or_eq_of_le hmono₁ with hlt | heq
              · obtain ⟨stᵦ, opj, m₂, st₃, rₐ, hsite, hcnt, hbr, hbo, hm₂,
                  hguard, hcnt₃, hchain⟩ := ih₁ st v (st₁, Except.ok rv) hv hlt
                exact ⟨stᵦ, opj, m₂, st₃, rₐ,
                  ReachSite.fhead (hsite.smono hstepmono), hcnt, hbr, hbo,
                  lt_of_lt_of_le hm₂ hstepmono, hguard, hcnt₃,
                  ExtFromB.stepF (hchain.bmono hstepmono) (Nat.lt_succ_self n)
                    hrest⟩
              · have hcount₂ : List.count j st₁.log < List.count j st₂.log := by
                  rw [← heq]; exact hcount
                obtain ⟨stᵦ, opj, m₂, st₃, rₐ, hsite, hcnt, hbr, hbo, hm₂,
                  hguard, hcnt₃, hchain⟩ := ih₃ st₁ rest (st₂, rvs) hrest hcount₂
                exact ⟨stᵦ, opj, m₂, st₃, rₐ,
                  ReachSite.ftail (Nat.lt_succ_self n) hv
                    (hsite.smono hstepmono),
                  hcnt.trans heq.symm, hbr, hbo, lt_of_lt_of_le hm₂ hstepmono,
                  hguard, hcnt₃, hchain.bmono hstepmono⟩

set_option maxHeartbeats 1600000 in
/-- Transport: given a derivation of the path to a site for `j` (with `j`
pending and uncomputed there), any rerun of the derivation's target from a
state reachable from the site either performs a dispatch of `j` (strictly
increasing its count over the site's) or ends in an error.  The hypothesis
`hNS` supplies, at every smaller fuel, that resolving an operation's own
arguments never dispatches that operation's id. -/
theorem transport (d : Dispatcher) (j : Int) (B : Nat)
    (hNS : ∀ (m : Nat) (stp stp' : RState) (resp : Except String Value)
        (j' : Int) (op' : Operation),
      m < B → stp.sd.PendingResults j' = none →
      stp.sd.PendingOperations j' = some op' →
      resolvePipelineReferences d m stp op'.Args = some (stp', resp) →
      List.count j' stp'.log = List.count j' stp.log)
    {st : RState} {t : RTarget} {stᵦ : RState}
    (hsite : ReachSite d B j st t stᵦ) :
    ∀ (m : Nat) (st₂ st₂' : RState) (isE : Bool), m ≤ B →
      ExtR d B stᵦ st₂ →
      targetRun d m st₂ t = some (st₂', isE) →
      List.count j stᵦ.log < List.count j st₂'.log ∨ isE = true := by
  induction hsite with
  | here href hres hop =>
    next st elems rest op =>
    intro m st₂ st₂' isE hm hch hrr
    cases m with
    | zero => simp [targetRun, resolvePipelineReferences] at hrr
    | succ m' =>
      rcases hrun₂ : resolvePipelineReferences d (m' + 1) st₂ (Value.arr elems)
        with _ | ⟨stq, resq⟩ <;> simp only [targetRun, hrun₂] at hrr
      · exact absurd hrr (by simp)
      · simp only [Option.map_some', Option.some.injEq, Prod.mk.injEq] at hrr
        obtain ⟨hq1, hq2⟩ := hrr
        subst hq1
        simp only [resolvePipelineReferences, href] at hrun₂
        rcases hw : st₂.sd.PendingResults j with _ | w₂ <;>
          simp only [hw] at hrun₂
        · have hpk : st₂.sd.PendingOperations j = some op := by
            rcases hch.erf.2.2.2.1 j (by simp [hop]) with hpn | hrn
            · rcases hy : st₂.sd.PendingOperations j with _ | y
              · exact absurd hy hpn
              · have h' := (hch.erf.2.1 j y hy).symm.trans hop
                injection h' with h''
                rw [h'']
            · exact absurd hw hrn
          simp only [hpk] at hrun₂
          rcases hg₂ : resolvePipelineReferences d m' st₂ op.Args
            with _ | ⟨stg₂, gres⟩ <;> simp only [hg₂] at hrun₂
          · exact absurd hrun₂ (by simp)
          · cases gres with
            | error e =>
              right
              simp only [Option.some.injEq, Prod.mk.injEq] at hrun₂
              rw [← hq2, ← hrun₂.2]
              rfl
            | ok ra₂ =>
              rcases hd₂ : d op.Method ra₂ with e | w' <;>
                simp only [hd₂] at hrun₂
              · right
                simp only [Option.some.injEq, Prod.mk.injEq] at hrun₂
                rw [← hq2, ← hrun₂.2]
                rfl
              · left
                have c1 := hch.erf.1 j
                have c2 : List.count j st₂.log ≤ List.count j stg₂.log :=
                  ((runFacts d m').1 st₂ op.Args
                    (stg₂, Except.ok ra₂) hg₂).1 j
                have key : List.count j stq.log =
                    List.count j stg₂.log + 1 := by
                  rcases hpath : refPath rest with _ | pa <;>
                    simp only [hpath, Option.some.injEq, Prod.mk.injEq]
                      at hrun₂ <;>
                    rw [← hrun₂.1] <;>
                    simp [List.count_append]
                omega
        · left
          have hq : st₂ = stq := by
            rcases hpath : refPath rest with _ | pa <;>
              simp only [hpath, Option.some.injEq, Prod.mk.injEq] at hrun₂ <;>
              exact hrun₂.1
          have hnew := hch.erf.2.2.2.2.1 j hres (by simp [hw])
          rw [← hq]
          exact hnew
  | viaRef href hres hop hf hg hbg hsub ih =>
    next st stᵦ stg elems rest k opk fk resg =>
    intro m st₂ st₂' isE hm hch hrr
    have hbk : stᵦ.sd.PendingResults k = none := by
      by_contra hbk'
      have hgres : stg.sd.PendingResults k ≠ none := hbg.brf.2.2.1 k hbk'
      have hcg : List.count k st.log < List.count k stg.log :=
        ((runFacts d fk).1 st opk.Args (stg, resg) hg).2.2.2.2.1 k hres hgres
      have hns := hNS fk st stg resg k opk hf hres hop hg
      omega
    have hbpk : stᵦ.sd.PendingOperations k = some opk := by
      rcases hsub.chain.erf.2.2.2.1 k (by simp [hop]) with hpn | hrn
      · rcases hy : stᵦ.sd.PendingOperations k with _ | y
        · exact absurd hy hpn
        · have h' := (hsub.chain.erf.2.1 k y hy).symm.trans hop
          injection h' with h''
          rw [h'']
      · exact absurd hbk hrn
    cases m with
    | zero => simp [targetRun, resolvePipelineReferences] at hrr
    | succ m' =>
      have hm' : m' < B := lt_of_lt_of_le (Nat.lt_succ_self m') hm
      rcases hrun₂ : resolvePipelineReferences d (m' + 1) st₂ (Value.arr elems)
        with _ | ⟨stq, resq⟩ <;> simp only [targetRun, hrun₂] at hrr
      · exact absurd hrr (by simp)
      · simp only [Option.map_some', Option.some.injEq, Prod.mk.injEq] at hrr
        obtain ⟨hq1, hq2⟩ := hrr
        subst hq1
        simp only [resolvePipelineReferences, href] at hrun₂
        rcases hw : st₂.sd.PendingResults k with _ | w₂ <;>
          simp only [hw] at hrun₂
        · have hpk : st₂.sd.PendingOperations k = some opk := by
            rcases hch.erf.2.2.2.1 k (by simp [hbpk]) with hpn | hrn
            · rcases hy : st₂.sd.PendingOperations k with _ | y
              · exact absurd hy hpn
              · have h' := (hch.erf.2.1 k y hy).symm.trans hbpk
                injection h' with h''
                rw [h'']
            · exact absurd hw hrn
          simp only [hpk] at hrun₂
          rcases hg₂ : resolvePipelineReferences d m' st₂ opk.Args
            with _ | ⟨stg₂, gres⟩ <;> simp only [hg₂] at hrun₂
          · exact absurd hrun₂ (by simp)
          · cases gres with
            | error e =>
              right
              simp only [Option.some.injEq, Prod.mk.injEq] at hrun₂
              rw [← hq2, ← hrun₂.2]
              rfl
            | ok ra₂ =>
              have htr : targetRun d m' st₂ (RTarget.V opk.Args) =
                  some (stg₂, false) := by
                simp only [targetRun, hg₂, Option.map_some', isErr]
              rcases ih m' st₂ stg₂ false (le_of_lt hm') hch htr with hlt | habs
              · left
                rcases hd₂ : d opk.Method ra₂ with e | w' <;>
                  simp only [hd₂] at hrun₂
                · simp only [Option.some.injEq, Prod.mk.injEq] at hrun₂
                  rw [← hrun₂.1]
                  exact hlt
                · have key : List.count j stg₂.log ≤ List.count j stq.log := by
                    rcases hpath : refPath rest with _ | pa <;>
                      simp only [hpath, Option.some.injEq, Prod.mk.injEq]
                        at hrun₂ <;>
                      rw [← hrun₂.1] <;>
                      · simp only [List.count_append]
                        exact Nat.le_add_right _ _
                  omega
              · exact absurd habs (by simp)
        · have hq : st₂ = stq := by
            rcases hpath : refPath rest with _ | pa <;>
              simp only [hpath, Option.some.injEq, Prod.mk.injEq] at hrun₂ <;>
              exact hrun₂.1
          obtain ⟨stₓ, certEnd, rₐc, mc, opk'', chainR, hx0, hx1, hmc, certRun,
            w, hsand⟩ := chainCert hch hbk (by simp [hw])
          have hoo : opk'' = opk := by
            have h1 := chainR.erf.2.1 k opk'' hx1
            have h' := h1.symm.trans hbpk
            injection h' with h''
          rw [hoo] at certRun
          have htr : targetRun d mc stₓ (RTarget.V opk.Args) =
              some (certEnd, false) := by
            simp only [targetRun, certRun, Option.map_some', isErr]
          rcases ih mc stₓ certEnd false (le_of_lt hmc) chainR htr
            with hlt | habs
          · left
            have c1 := (RF.rcache certEnd k w).1 j
            have c2 := hsand.brf.1 j
            rw [← hq]
            omega
          · exact absurd habs (by simp)
  | viaList hnone hsub ih =>
    next st stᵦ elems =>
    intro m st₂ st₂' isE hm hch hrr
    cases m with
    | zero => simp [targetRun, resolvePipelineReferences] at hrr
    | succ m' =>
      have hm' : m' < B := lt_of_lt_of_le (Nat.lt_succ_self m') hm
      rcases hrun₂ : resolvePipelineReferences d (m' + 1) st₂ (Value.arr elems)
        with _ | ⟨stq, resq⟩ <;> simp only [targetRun, hrun₂] at hrr
      · exact absurd hrr (by simp)
      · simp only [Option.map_some', Option.some.injEq, Prod.mk.injEq] at hrr
        obtain ⟨hq1, hq2⟩ := hrr
        subst hq1
        simp only [resolvePipelineReferences, hnone] at hrun₂
        rcases hl₂ : resolveList d m' st₂ elems with _ | ⟨stl, lres⟩ <;>
          simp only [hl₂] at hrun₂
        · exact absurd hrun₂ (by simp)
        · have htr : targetRun d m' st₂ (RTarget.L elems) =
              some (stl, isErr lres) := by
            simp only [targetRun, hl₂, Option.map_some']
          rcases ih m' st₂ stl (isErr lres) (le_of_lt hm') hch htr
            with hlt | herr
          · left
            have hq : stl = stq := by
              cases lres <;>
                simp only [Option.some.injEq, Prod.mk.injEq] at hrun₂ <;>
                exact hrun₂.1
            rw [← hq]
            exact hlt
          · right
            cases lres with
            | error e =>
              simp only [Option.some.injEq, Prod.mk.injEq] at hrun₂
              rw [← hq2, ← hrun₂.2]
              rfl
            | ok _ => simp [isErr] at herr
  | viaObj hsub ih =>
    next st stᵦ fields =>
    intro m st₂ st₂' isE hm hch hrr
    cases m with
    | zero => simp [targetRun, resolvePipelineReferences] at hrr
    | succ m' =>
      have hm' : m' < B := lt_of_lt_of_le (Nat.lt_succ_self m') hm
      rcases hrun₂ : resolvePipelineReferences d (m' + 1) st₂ (Value.obj fields)
        with _ | ⟨stq, resq⟩ <;> simp only [targetRun, hrun₂] at hrr
      · exact absurd hrr (by simp)
      · simp only [Option.map_some', Option.some.injEq, Prod.mk.injEq] at hrr
        obtain ⟨hq1, hq2⟩ := hrr
        subst hq1
        simp only [resolvePipelineReferences] at hrun₂
        rcases hl₂ : resolveFields d m' st₂ fields with _ | ⟨stl, lres⟩ <;>
          simp only [hl₂] at hrun₂
        · exact absurd hrun₂ (by simp)
        · have htr : targetRun d m' st₂ (RTarget.F fields) =
              some (stl, isErr lres) := by
            simp only [targetRun, hl₂, Option.map_some']
          rcases ih m' st₂ stl (isErr lres) (le_of_lt hm') hch htr
            with hlt | herr
          · left
            have hq : stl = stq := by
              cases lres <;>
                simp only [Option.some.injEq, Prod.mk.injEq] at hrun₂ <;>
                exact hrun₂.1
            rw [← hq]
            exact hlt
          · right
            cases lres with
            | error e =>
              simp only [Option.some.injEq, Prod.mk.injEq] at hrun₂
              rw [← hq2, ← hrun₂.2]
              rfl
            | ok _ => simp [isErr] at herr
  | lhead hsub ih =>
    next st stᵦ v rest =>
    intro m st₂ st₂' isE hm hch hrr
    cases m with
    | zero => simp [targetRun, resolveList] at hrr
    | succ m' =>
      have hm' : m' < B := lt_of_lt_of_le (Nat.lt_succ_self m') hm
      rcases hrun₂ : resolveList d (m' + 1) st₂ (v :: rest)
        with _ | ⟨stq, resq⟩ <;> simp only [targetRun, hrun₂] at hrr
      · exact absurd hrr (by simp)
      · simp only [Option.map_some', Option.some.injEq, Prod.mk.injEq] at hrr
        obtain ⟨hq1, hq2⟩ := hrr
        subst hq1
        simp only [resolveList] at hrun₂
        rcases hv₂ : resolvePipelineReferences d m' st₂ v
          with _ | ⟨stB₁, rv⟩ <;> simp only [hv₂] at hrun₂
        · exact absurd hrun₂ (by simp)
        · cases rv with
          | error e =>
            right
            simp only [Option.some.injEq, Prod.mk.injEq] at hrun₂
            rw [← hq2, ← hrun₂.2]
            rfl
          | ok rv =>
            have htr : targetRun d m' st₂ (RTarget.V v) =
                some (stB₁, false) := by
              simp only [targetRun, hv₂, Option.map_some', isErr]
            rcases ih m' st₂ stB₁ false (le_of_lt hm') hch htr
              with hlt | habs
            · left
              rcases hr₂ : resolveList d m' stB₁ rest
                with _ | ⟨stq₂, rvs⟩ <;> simp only [hr₂] at hrun₂
              · exact absurd hrun₂ (by simp)
              · have hq : stq₂ = stq := by
                  cases rvs <;>
                    simp only [Option.some.injEq, Prod.mk.injEq] at hrun₂ <;>
                    exact hrun₂.1
                have c2 : List.count j stB₁.log ≤ List.count j stq₂.log :=
                  ((runFacts d m').2.1 stB₁ rest (stq₂, rvs) hr₂).1 j
                rw [← hq]
                omega
            · exact absurd habs (by simp)
  | ltail hf hv hsub ih =>
    next st st₁ stᵦ v rest f r₀ =>
    intro m st₂ st₂' isE hm hch hrr
    cases m with
    | zero => simp [targetRun, resolveList] at hrr
    | succ m' =>
      have hm' : m' < B := lt_of_lt_of_le (Nat.lt_succ_self m') hm
      rcases hrun₂ : resolveList d (m' + 1) st₂ (v :: rest)
        with _ | ⟨stq, resq⟩ <;> simp only [targetRun, hrun₂] at hrr
      · exact absurd hrr (by simp)
      · simp only [Option.map_some', Option.some.injEq, Prod.mk.injEq] at hrr
        obtain ⟨hq1, hq2⟩ := hrr
        subst hq1
        simp only [resolveList] at hrun₂
        rcases hv₂ : resolvePipelineReferences d m' st₂ v
          with _ | ⟨stB₁, rv⟩ <;> simp only [hv₂] at hrun₂
        · exact absurd hrun₂ (by simp)
        · cases rv with
          | error e =>
            right
            simp only [Option.some.injEq, Prod.mk.injEq] at hrun₂
            rw [← hq2, ← hrun₂.2]
            rfl
          | ok rv =>
            have hch₂ : ExtR d B stᵦ stB₁ := ExtR.stepV hch hm' hv₂
            rcases hr₂ : resolveList d m' stB₁ rest
              with _ | ⟨stq₂, rvs⟩ <;> simp only [hr₂] at hrun₂
            · exact absurd hrun₂ (by simp)
            · have htr : targetRun d m' stB₁ (RTarget.L rest) =
                  some (stq₂, isErr rvs) := by
                simp only [targetRun, hr₂, Option.map_some']
              rcases ih m' stB₁ stq₂ (isErr rvs) (le_of_lt hm') hch₂ htr
                with hlt | herr
              · left
                have hq : stq₂ = stq := by
                  cases rvs <;>
                    simp only [Option.some.injEq, Prod.mk.injEq] at hrun₂ <;>
                    exact hrun₂.1
                rw [← hq]
                exact hlt
              · right
                cases rvs with
                | error e =>
                  simp only [Option.some.injEq, Prod.mk.injEq] at hrun₂
                  rw [← hq2, ← hrun₂.2]
                  rfl
                | ok _ => simp [isErr] at herr
  | fhead hsub ih =>
    next st stᵦ ky v rest =>
    intro m st₂ st₂' isE hm hch hrr
    cases m with
    | zero => simp [targetRun, resolveFields] at hrr
    | succ m' =>
      have hm' : m' < B := lt_of_lt_of_le (Nat.lt_succ_self m') hm
      rcases hrun₂ : resolveFields d (m' + 1) st₂ ((ky, v) :: rest)
        with _ | ⟨stq, resq⟩ <;> simp only [targetRun, hrun₂] at hrr
      · exact absurd hrr (by simp)
      · simp only [Option.map_some', Option.some.injEq, Prod.mk.injEq] at hrr
        obtain ⟨hq1, hq2⟩ := hrr
        subst hq1
        simp only [resolveFields] at hrun₂
        rcases hv₂ : resolvePipelineReferences d m' st₂ v
          with _ | ⟨stB₁, rv⟩ <;> simp only [hv₂] at hrun₂
        · exact absurd hrun₂ (by simp)
        · cases rv with
          | error e =>
            right
            simp only [Option.some.injEq, Prod.mk.injEq] at hrun₂
            rw [← hq2, ← hrun₂.2]
            rfl
          | ok rv =>
            have htr : targetRun d m' st₂ (RTarget.V v) =
                some (stB₁, false) := by
              simp only [targetRun, hv₂, Option.map_some', isErr]
            rcases ih m' st₂ stB₁ false (le_of_lt hm') hch htr
              with hlt | habs
            · left
              rcases hr₂ : resolveFields d m' stB₁ rest
                with _ | ⟨stq₂, rvs⟩ <;> simp only [hr₂] at hrun₂
              · exact absurd hrun₂ (by simp)
              · have hq : stq₂ = stq := by
                  cases rvs <;>
                    simp only [Option.some.injEq, Prod.mk.injEq] at hrun₂ <;>
                    exact hrun₂.1
                have c2 : List.count j stB₁.log ≤ List.count j stq₂.log :=
                  ((runFacts d m').2.2 stB₁ rest (stq₂, rvs) hr₂).1 j
                rw [← hq]
                omega
            · exact absurd habs (by simp)
  | ftail hf hv hsub ih =>
    next st st₁ stᵦ ky v rest f r₀ =>
    intro m st₂ st₂' isE hm hch hrr
    cases m with
    | zero => simp [targetRun, resolveFields] at hrr
    | succ m' =>
      have hm' : m' < B := lt_of_lt_of_le (Nat.lt_succ_self m') hm
      rcases hrun₂ : resolveFields d (m' + 1) st₂ ((ky, v) :: rest)
        with _ | ⟨stq, resq⟩ <;> simp only [targetRun, hrun₂] at hrr
      · exact absurd hrr (by simp)
      · simp only [Option.map_some', Option.some.injEq, Prod.mk.injEq] at hrr
        obtain ⟨hq1, hq2⟩ := hrr
        subst hq1
        simp only [resolveFields] at hrun₂
        rcases hv₂ : resolvePipelineReferences d m' st₂ v
          with _ | ⟨stB₁, rv⟩ <;> simp only [hv₂] at hrun₂
        · exact absurd hrun₂ (by simp)
        · cases rv with
          | error e =>
            right
            simp only [Option.some.injEq, Prod.mk.injEq] at hrun₂
            rw [← hq2, ← hrun₂.2]
            rfl
          | ok rv =>
            have hch₂ : ExtR d B stᵦ stB₁ := ExtR.stepV hch hm' hv₂
            rcases hr₂ : resolveFields d m' stB₁ rest
              with _ | ⟨stq₂, rvs⟩ <;> simp only [hr₂] at hrun₂
            · exact absurd hrun₂ (by simp)
            · have htr : targetRun d m' stB₁ (RTarget.F rest) =
                  some (stq₂, isErr rvs) := by
                simp only [targetRun, hr₂, Option.map_some']
              rcases ih m' stB₁ stq₂ (isErr rvs) (le_of_lt hm') hch₂ htr
                with hlt | herr
              · left
                have hq : stq₂ = stq := by
                  cases rvs <;>
                    simp only [Option.some.injEq, Prod.mk.injEq] at hrun₂ <;>
                    exact hrun₂.1
                rw [← hq]
                exact hlt
              · right
                cases rvs with
                | error e =>
                  simp only [Option.some.injEq, Prod.mk.injEq] at hrun₂
                  rw [← hq2, ← hrun₂.2]
                  rfl
                | ok _ => simp [isErr] at herr

/-- Resolving an operation's own arguments never dispatches that operation's
id: the recursion guarding a pending reference cannot reach a dispatch of the
id it guards. -/
theorem noself (d : Dispatcher) :
    ∀ (n : Nat) (j : Int) (op : Operation) (st st' : RState)
      (res : Except String Value),
      st.sd.PendingResults j = none →
      st.sd.PendingOperations j = some op →
      resolvePipelineReferences d n st op.Args = some (st', res) →
      List.count j st'.log = List.count j st.log := by
  intro n
  induction n using Nat.strong_induction_on with
  | _ n ih =>
    intro j op st st' res hres hop hrun
    have hmono : List.count j st.log ≤ List.count j st'.log :=
      ((runFacts d n).1 st op.Args (st', res) hrun).1 j
    rcases lt_or_eq_of_le hmono with hlt | heq
    · exfalso
      obtain ⟨stᵦ, opj, m₂, st₃, rₐ, hsite, hcnt, hbr, hbo, hm₂, hguard, hcnt₃,
        hchain⟩ := (extractSite d j n).1 st op.Args (st', res) hrun hlt
      have hNS : ∀ (m : Nat) (stp stp' : RState) (resp : Except String Value)
          (j' : Int) (op' : Operation),
          m < n → stp.sd.PendingResults j' = none →
          stp.sd.PendingOperations j' = some op' →
          resolvePipelineReferences d m stp op'.Args = some (stp', resp) →
          List.count j' stp'.log = List.count j' stp.log := by
        intro m stp stp' resp j' op' hm h1 h2 h3
        exact ih m hm j' op' stp stp' resp h1 h2 h3
      have hoj : opj = op := by
        have h1 := hsite.chain.erf.2.1 j opj hbo
        have h' := h1.symm.trans hop
        injection h' with h''
      rw [hoj] at hguard
      have htr : targetRun d m₂ stᵦ (RTarget.V op.Args) =
          some (st₃, false) := by
        simp only [targetRun, hguard, Option.map_some', isErr]
      rcases transport d j n hNS hsite m₂ stᵦ st₃ false (le_of_lt hm₂)
        (ExtR.refl stᵦ) htr with hlt₂ | habs
      · rw [hcnt₃] at hlt₂
        exact lt_irrefl _ hlt₂
      · exact absurd habs (by simp)
    · exact heq.symm

set_option maxHeartbeats 1000000 in
/-- Every completed resolver run preserves `LogOK`, and every id newly
appended to the log was pending at the run's start. -/
theorem runLogOK (d : Dispatcher) :
    ∀ n : Nat,
      (∀ st v out, resolvePipelineReferences d n st v = some out → LogOK st →
        LogOK out.1 ∧
        ∀ k, k ∈ out.1.log → k ∉ st.log → st.sd.PendingOperations k ≠ none) ∧
      (∀ st vs out, resolveList d n st vs = some out → LogOK st →
        LogOK out.1 ∧
        ∀ k, k ∈ out.1.log → k ∉ st.log → st.sd.PendingOperations k ≠ none) ∧
      (∀ st fs out, resolveFields d n st fs = some out → LogOK st →
        LogOK out.1 ∧
        ∀ k, k ∈ out.1.log → k ∉ st.log → st.sd.PendingOperations k ≠ none) := by
  intro n
  induction n with
  | zero =>
    refine ⟨?_, ?_, ?_⟩ <;> intro st x out h <;>
      simp [resolvePipelineReferences, resolveList, resolveFields] at h
  | succ n ih =>
    obtain ⟨ih₁, ih₂, ih₃⟩ := ih
    refine ⟨?_, ?_, ?_⟩
    · intro st v out h hL
      cases v with
      | arr elems =>
        simp only [resolvePipelineReferences] at h
        rcases href : asPipelineRef elems with _ | ⟨refExportID, rest⟩ <;>
          simp only [href] at h
        · rcases hl : resolveList d n st elems with _ | ⟨st₁, res⟩ <;>
            simp only [hl] at h
          · simp at h
          · have hout : out.1 = st₁ := by
              cases res <;> simp only [Option.some.injEq] at h <;> subst h <;> rfl
            rw [hout]
            exact ih₂ st elems (st₁, res) hl hL
        · rcases hres : st.sd.PendingResults refExportID with _ | result <;>
            simp only [hres] at h
          · rcases hop : st.sd.PendingOperations refExportID with _ | operation <;>
              simp only [hop] at h
            · simp only [Option.some.injEq] at h
              subst h
              exact ⟨hL, fun k hk hnk => absurd hk hnk⟩
            · rcases hargs : resolvePipelineReferences d n st operation.Args with
                _ | ⟨st₁, argsRes⟩ <;> simp only [hargs] at h
              · simp at h
              · obtain ⟨hL₁, hnew₁⟩ :=
                  ih₁ st operation.Args (st₁, argsRes) hargs hL
                cases argsRes with
                | error e =>
                  simp only [Option.some.injEq] at h; subst h
                  exact ⟨hL₁, hnew₁⟩
                | ok resolvedArgs =>
                  rcases hdisp : d operation.Method resolvedArgs with e | result <;>
                    simp only [hdisp] at h
                  · simp only [Option.some.injEq] at h; subst h
                    exact ⟨hL₁, hnew₁⟩
                  · have hout : out.1 = cachePost st₁ refExportID result := by
                      rcases hpath : refPath rest with _ | pathArray <;>
                        simp only [hpath] at h <;>
                        simp only [Option.some.injEq] at h <;> subst h <;> rfl
                    rw [hout]
                    have h0 : refExportID ∉ st.log := fun hmem =>
                      (hL.2 refExportID hmem).2 hres
                    have hcount := noself d n refExportID operation st st₁
                      (Except.ok resolvedArgs) hres hop hargs
                    have hnotin : refExportID ∉ st₁.log := by
                      have h0' : List.count refExportID st.log = 0 :=
                        List.count_eq_zero.mpr h0
                      have hz : List.count refExportID st₁.log = 0 := by
                        rw [hcount]; exact h0'
                      exact List.count_eq_zero.mp hz
                    have hLb : LogOK st₁ := hL₁
                    refine ⟨⟨?_, ?_⟩, ?_⟩
                    · simp only [cachePost]
                      rw [List.nodup_append]
                      exact ⟨hLb.1, List.nodup_singleton _, fun a ha hb => by
                        simp only [List.mem_singleton] at hb
                        subst hb
                        exact hnotin ha⟩
                    · intro kk hkk
                      simp only [cachePost, List.mem_append,
                        List.mem_singleton] at hkk
                      rcases hkk with hkk | hkk
                      · obtain ⟨hp, hr⟩ := hLb.2 kk hkk
                        constructor
                        · by_cases hkr : kk = refExportID
                          · simp [cachePost, Table.del, hkr]
                          · simp [cachePost, Table.del, hkr, hp]
                        · by_cases hkr : kk = refExportID
                          · simp [cachePost, Table.set, hkr]
                          · simp only [cachePost, Table.set]
                            simp [hkr]
                            exact hr
                      · subst hkk
                        constructor
                        · simp [cachePost, Table.del]
                        · simp [cachePost, Table.set]
                    · intro kk hkk hnk
                      simp only [cachePost, List.mem_append,
                        List.mem_singleton] at hkk
                      rcases hkk with hkk | hkk
                      · exact hnew₁ kk hkk hnk
                      · subst hkk
                        simp [hop]
          · rcases hpath : refPath rest with _ | pathArray <;>
              simp only [hpath] at h <;> simp only [Option.some.injEq] at h <;>
              subst h <;> exact ⟨hL, fun k hk hnk => absurd hk hnk⟩
      | obj fields =>
        simp only [resolvePipelineReferences] at h
        rcases hf : resolveFields d n st fields with _ | ⟨st₁, res⟩ <;>
          simp only [hf] at h
        · simp at h
        · have hout : out.1 = st₁ := by
            cases res <;> simp only [Option.some.injEq] at h <;> subst h <;> rfl
          rw [hout]
          exact ih₃ st fields (st₁, res) hf hL
      | null =>
        simp only [resolvePipelineReferences, Option.some.injEq] at h
        subst h; exact ⟨hL, fun k hk hnk => absurd hk hnk⟩
      | bool b =>
        simp only [resolvePipelineReferences, Option.some.injEq] at h
        subst h; exact ⟨hL, fun k hk hnk => absurd hk hnk⟩
      | num m =>
        simp only [resolvePipelineReferences, Option.some.injEq] at h
        subst h; exact ⟨hL, fun k hk hnk => absurd hk hnk⟩
      | str s =>
        simp only [resolvePipelineReferences, Option.some.injEq] at h
        subst h; exact ⟨hL, fun k hk hnk => absurd hk hnk⟩
    · intro st vs out h hL
      cases vs with
      | nil =>
        simp only [resolveList, Option.some.injEq] at h
        subst h; exact ⟨hL, fun k hk hnk => absurd hk hnk⟩
      | cons v rest =>
        simp only [resolveList] at h
        rcases hv : resolvePipelineReferences d n st v with _ | ⟨st₁, rv⟩ <;>
          simp only [hv] at h
        · simp at h
        · cases rv with
          | error e =>
            simp only [Option.some.injEq] at h; subst h
            exact ih₁ st v (st₁, Except.error e) hv hL
          | ok rv =>
            rcases hrest : resolveList d n st₁ rest with _ | ⟨st₂, rvs⟩ <;>
              simp only [hrest] at h
            · simp at h
            · have hout : out.1 = st₂ := by
                cases rvs <;> simp only [Option.some.injEq] at h <;> subst h <;> rfl
              rw [hout]
              obtain ⟨hL₁, hnew₁⟩ := ih₁ st v (st₁, Except.ok rv) hv hL
              obtain ⟨hL₂, hnew₂⟩ := ih₂ st₁ rest (st₂, rvs) hrest hL₁
              refine ⟨hL₂, ?_⟩
              intro kk hkk hnk
              by_cases hm₁ : kk ∈ st₁.log
              · exact hnew₁ kk hm₁ hnk
              · have h₂ := hnew₂ kk hkk hm₁
                rcases hy : st₁.sd.PendingOperations kk with _ | y
                · exact absurd hy h₂
                · have hback :=
                    ((runFacts d n).1 st v (st₁, Except.ok rv) hv).2.1 kk y hy
                  simp [hback]
    · intro st fs out h hL
      cases fs with
      | nil =>
        simp only [resolveFields, Option.some.injEq] at h
        subst h; exact ⟨hL, fun k hk hnk => absurd hk hnk⟩
      | cons kv rest =>
        obtain ⟨ky, v⟩ := kv
        simp only [resolveFields] at h
        rcases hv : resolvePipelineReferences d n st v with _ | ⟨st₁, rv⟩ <;>
          simp only [hv] at h
        · simp at h
        · cases rv with
          | error e =>
            simp only [Option.some.injEq] at h; subst h
            exact ih₁ st v (st₁, Except.error e) hv hL
          | ok rv =>
            rcases hrest : resolveFields d n st₁ rest with _ | ⟨st₂, rvs⟩ <;>
              simp only [hrest] at h
            · simp at h
            · have hout : out.1 = st₂ := by
                cases rvs <;> simp only [Option.some.injEq] at h <;> subst h <;> rfl
              rw [hout]
              obtain ⟨hL₁, hnew₁⟩ := ih₁ st v (st₁, Except.ok rv) hv hL
              obtain ⟨hL₂, hnew₂⟩ := ih₃ st₁ rest (st₂, rvs) hrest hL₁
              refine ⟨hL₂, ?_⟩
              intro kk hkk hnk
              by_cases hm₁ : kk ∈ st₁.log
              · exact hnew₁ kk hm₁ hnk
              · have h₂ := hnew₂ kk hkk hm₁
                rcases hy : st₁.sd.PendingOperations kk with _ | y
                · exact absurd hy h₂
                · have hback :=
                    ((runFacts d n).1 st v (st₁, Except.ok rv) hv).2.1 kk y hy
                  simp [hback]

/-- C4: within the handling of a single pull message, if two or more pipeline
references in the argument tree name the same export id, the dispatcher is
invoked at most once for that id: the log of dispatched export ids is
duplicate-free, every logged id was pending when the pull began, and after
the pull it has been moved out of the pending table into the results table
(so any later encounter reads the cached value instead of dispatching). -/
theorem claim_C4 (d : Dispatcher) (fuel : Nat) (sd : SessionData) (i : Int)
    (sd' : SessionData) (lg : List Int) (msg : Value)
    (h : handlePull d fuel sd i = some (sd', lg, msg)) :
    lg.Nodup ∧
    ∀ k, k ∈ lg →
      sd.PendingOperations k ≠ none ∧
      sd'.PendingOperations k = none ∧
      sd'.PendingResults k ≠ none := by
  simp only [handlePull] at h
  rcases hres : sd.PendingResults i with _ | result <;> simp only [hres] at h
  · rcases hop : sd.PendingOperations i with _ | operation <;>
      simp only [hop] at h
    · simp only [Option.some.injEq, Prod.mk.injEq] at h
      obtain ⟨h1, h2, h3⟩ := h
      subst h2
      exact ⟨List.nodup_nil, fun k hk => absurd hk (List.not_mem_nil k)⟩
    · rcases hrun : resolvePipelineReferences d fuel { sd := sd, log := [] }
        operation.Args with _ | ⟨st', res⟩ <;> simp only [hrun] at h
      · simp at h
      · have hbase : LogOK { sd := sd, log := ([] : List Int) } :=
          ⟨List.nodup_nil, fun k hk => absurd hk (List.not_mem_nil k)⟩
        obtain ⟨hLf, hnewf⟩ :=
          (runLogOK d fuel).1 { sd := sd, log := [] } operation.Args
            (st', res) hrun hbase
        have hL' : LogOK st' := hLf
        have hnew' : ∀ k, k ∈ st'.log → sd.PendingOperations k ≠ none :=
          fun k hk => hnewf k hk (List.not_mem_nil k)
        cases res with
        | error e =>
          simp only [Option.some.injEq, Prod.mk.injEq] at h
          obtain ⟨h1, h2, h3⟩ := h
          subst h1 h2
          exact ⟨hL'.1, fun k hk =>
            ⟨hnew' k hk, (hL'.2 k hk).1, (hL'.2 k hk).2⟩⟩
        | ok resolvedArgs =>
          rcases hdisp : d operation.Method resolvedArgs with e | result <;>
            simp only [hdisp] at h <;>
            simp only [Option.some.injEq, Prod.mk.injEq] at h <;>
            obtain ⟨h1, h2, h3⟩ := h
          · subst h2
            refine ⟨hL'.1, fun k hk => ?_⟩
            have hp := (hL'.2 k hk).1
            have hr := (hL'.2 k hk).2
            refine ⟨hnew' k hk, ?_, ?_⟩
            · rw [← h1]
              by_cases hki : k = i
              · simp [Table.del, hki]
              · simp [Table.del, hki, hp]
            · rw [← h1]
              exact hr
          · subst h2
            refine ⟨hL'.1, fun k hk => ?_⟩
            have hp := (hL'.2 k hk).1
            have hr := (hL'.2 k hk).2
            refine ⟨hnew' k hk, ?_, ?_⟩
            · rw [← h1]
              by_cases hki : k = i
              · simp [Table.del, hki]
              · simp [Table.del, hki, hp]
            · rw [← h1]
              by_cases hki : k = i
              · simp [Table.set, hki]
              · simp only [Table.set]
                simp [hki]
                exact hr
  · split at h <;>
      · simp only [Option.some.injEq, Prod.mk.injEq] at h
        obtain ⟨h1, h2, h3⟩ := h
        subst h2
        exact ⟨List.nodup_nil, fun k hk => absurd hk (List.not_mem_nil k)⟩

theorem claim_C4_witness :
    lgC4 = [1] ∧
    (lgC4.Nodup ∧
      ∀ k, k ∈ lgC4 →
        sdC4.PendingOperations k ≠ none ∧
        sdC4'.PendingOperations k = none ∧
        sdC4'.PendingResults k ≠ none) :=
  ⟨rfl, claim_C4 dC4 6 sdC4 2 sdC4' lgC4 msgC4 rfl⟩

end GoCapnWeb
